import Mathlib

/-!
# Bitsquatter: the bit codec, the flip generator and the combiner

A shallow embedding of `src/bitsquat.c` and of the body of `main` in
`src/main.c`.

Conventions of the embedding.

* A C `char` array is a `List Int`; cell `k` holds the byte stored in `arr[k]`, a
  value in `0..255`.
* Plain `char` is signed, as on x86-64: a cell read as a `char` and promoted to `int`
  has the value `char_to_int` of its byte, so a byte from 128 on is read as a negative
  number.  A value stored in a `char` is reduced modulo 256.
* `'0'` is 48, `'1'` is 49, `'.'` is 46 and the string terminator is 0.
* A store outside the modelled array (undefined behaviour in C) leaves the
  modelled array unchanged.
-/

namespace Bitsquat

/-! ## Array primitives -/

/-- The assignment `arr[position] = value` with an `int` index. -/
def store (arr : List Int) (position : Int) (value : Int) : List Int :=
  if 0 ≤ position then arr.set position.toNat value else arr

/-- The C library call `strlen`: the number of cells before the first terminator. -/
def strlen (s : List Int) : Nat :=
  (s.takeWhile (fun c => c != 0)).length

/-- The characters of a C string held in `row`: the cells before the first terminator. -/
def c_str (row : List Int) : List Int :=
  row.takeWhile (fun c => c != 0)

/-- The C library call `memcpy(dst, src + offset, count)` seen from the destination:
the `count` cells read from `src` starting at `offset`. -/
def memcpy (src : List Int) (offset count : Nat) : List Int :=
  (src.drop offset).take count

/-! ## `bitsquat.c` -/

/-- The `while (ch > 0)` loop of `to_binary`.  The first argument bounds the number of
iterations; `to_binary_loop_fuel` shows that `ch.toNat` is always enough.  The
operators `/` and `%` are only evaluated at `ch > 0`, where they agree with the
truncating division of C. -/
def to_binary_loop : Nat → Int → Int → List Int → List Int
  | 0, _, _, arr => arr
  | fuel + 1, ch, position, arr =>
    if ch > 0 then
      to_binary_loop fuel (ch / 2) (position - 1) (store arr position (ch % 2 + 48))
    else arr

/-- The function `to_binary(ch, position, arr)`. -/
def to_binary (ch : Int) (position : Int) (arr : List Int) : List Int :=
  to_binary_loop ch.toNat ch position arr

/-- The digits part of `strtol(s, 0, 2)`: accumulate binary digits until the first
character that is not one. -/
def strtol_digits : List Int → Int → Int
  | [], acc => acc
  | c :: rest, acc =>
    if c = 48 ∨ c = 49 then strtol_digits rest (2 * acc + (c - 48)) else acc

/-- The white space that `strtol` skips (`isspace` in the C locale). -/
def is_space (c : Int) : Bool :=
  c == 32 || (9 ≤ c && c ≤ 13)

/-- The C library call `strtol(s, 0, 2)` on the characters of `s`: leading white space,
an optional sign, then binary digits. -/
def strtol2 (s : List Int) : Int :=
  match s.dropWhile is_space with
  | 45 :: rest => - strtol_digits rest 0
  | 43 :: rest => strtol_digits rest 0
  | rest => strtol_digits rest 0

/-- The function `to_character(binary_str, position, arr)`.  The `long` that `strtol`
returns is stored in a `char`, hence the reduction modulo 256. -/
def to_character (binary_str : List Int) (position : Nat) (arr : List Int) : List Int :=
  arr.set position (strtol2 (c_str binary_str) % 256)

/-- The value of a plain `char` once promoted to `int`, from the byte the cell holds:
the bytes `0..127` are themselves and the bytes `128..255` are `-128..-1`. -/
def char_to_int (c : Int) : Int :=
  (c + 128) % 256 - 128

/-- The `for` loop of `get_binary_string`; the first argument is the number of
iterations left, `str_length - i`.  `str` is a `const char*`: the cell `str[i]` reaches
the `int` parameter of `to_binary` through `char_to_int`. -/
def get_binary_string_loop : Nat → Nat → Int → List Int → List Int → List Int
  | 0, _, _, _, binary_str => binary_str
  | left + 1, i, byte, str, binary_str =>
    get_binary_string_loop left (i + 1) (byte + 8) str
      (to_binary (char_to_int (str.getD i 0)) byte binary_str)

/-- The function `get_binary_string(str_length, str, binary_str)`. -/
def get_binary_string (str_length : Nat) (str : List Int) (binary_str : List Int) :
    List Int :=
  get_binary_string_loop str_length 0 7 str binary_str

/-- The `for` loop of `get_string`.  The first argument bounds the number of iterations;
`get_string_loop_fuel` shows that `binary_str_length` is always enough.  `byte_buffer`
is the eight cells copied from `binary_str` followed by the terminator. -/
def get_string_loop : Nat → Nat → Nat → Nat → List Int → List Int → List Int
  | 0, _, _, _, _, str => str
  | fuel + 1, i, byte, binary_str_length, binary_str, str =>
    if byte < binary_str_length then
      get_string_loop fuel (i + 1) (byte + 8) binary_str_length binary_str
        (to_character (memcpy binary_str byte 8 ++ [0]) i str)
    else str

/-- The function `get_string(binary_str_length, binary_str, str)`. -/
def get_string (binary_str_length : Nat) (binary_str : List Int) (str : List Int) :
    List Int :=
  get_string_loop binary_str_length 0 0 binary_str_length binary_str str

/-! ## `main.c` -/

/-- The expression `(c == '1') ? '0' : '1'` of the flip loops. -/
def flip_char (c : Int) : Int :=
  if c = 49 then 48 else 49

/-- The array `dom_binary_str` (or `ext_binary_str`) once `memset` has filled its
`strlen(str) * 8` cells with `'0'` and `get_binary_string` has run over it. -/
def binary_str (str : List Int) : List Int :=
  get_binary_string (strlen str) str (List.replicate (strlen str * 8) 48)

/-- The fill loop over `dom_binary_permutations` (or `ext_binary_permutations`):
`binary_length + 1` rows, each the `binary_length + 1` cells copied from the source
followed by the store of the terminator in the last cell.  The copy reads one cell past
the end of the source array; that cell is modelled as 0 and is overwritten at once. -/
def fill_permutations (bits : List Int) (binary_length : Nat) : List (List Int) :=
  (List.range (binary_length + 1)).map
    (fun _ => (memcpy (bits ++ [0]) 0 (binary_length + 1)).set binary_length 0)

/-- The loop `for (i = 1; i < binary_length + 1; i++) rows[i][i] = flip(rows[i][i])`;
the first argument is the number of iterations left. -/
def flip_loop : Nat → Nat → List (List Int) → List (List Int)
  | 0, _, rows => rows
  | left + 1, i, rows =>
    flip_loop left (i + 1)
      (rows.set i ((rows.getD i []).set i (flip_char ((rows.getD i []).getD i 0))))

/-- The array `dom_binary_permutations` (or `ext_binary_permutations`) after the fill
loop and the flip loop. -/
def binary_permutations (bits : List Int) (binary_length : Nat) : List (List Int) :=
  flip_loop binary_length 1 (fill_permutations bits binary_length)

/-- The array `dom_str_permutations` (or `ext_str_permutations`) after the decode loop:
row `i` is what `get_string` writes from row `i` of the bit rows, then the terminator in
cell `str_length`.  The rows are uninitialised in C; they start as zeros here. -/
def str_permutations (str_length binary_length : Nat) (rows : List (List Int)) :
    List (List Int) :=
  (List.range (binary_length + 1)).map
    (fun i => (get_string binary_length (rows.getD i [])
      (List.replicate (str_length + 1) 0)).set str_length 0)

/-- The decoded variants of a label, as `main` computes them from the label alone. -/
def label_permutations (str : List Int) : List (List Int) :=
  str_permutations (strlen str) (strlen str * 8)
    (binary_permutations (binary_str str) (strlen str * 8))

/-- One row of `url_permutations`: the four stores of the body of the combine loop. -/
def url_row (d : List Int) (dom_str_length : Nat) (e : List Int) (ext_str_length : Nat) :
    List Int :=
  memcpy d 0 dom_str_length ++ [46] ++ memcpy e 0 ext_str_length ++ [0]

/-- The value of `num_url_combinations`, the number of rows of `url_permutations`. -/
def num_url_combinations (permutateExtension : Bool) (dom ext : List Int) : Nat :=
  if permutateExtension then (strlen dom * 8) * (strlen ext * 8) else strlen dom * 8

/-- The number of times the body of the combine loop runs, that is the number of rows
it stores: one for each domain variant, times one for each extension variant when the
extension is permuted. -/
def num_url_stores (permutateExtension : Bool) (dom ext : List Int) : Nat :=
  if permutateExtension then (strlen dom * 8 + 1) * (strlen ext * 8 + 1)
  else strlen dom * 8 + 1

/-- The combine loop: the rows it stores, in the order of `counter`, for
`counter = 0 .. num_url_combinations`.  Rows `0 .. num_url_combinations - 1` are the rows
of the array `url_permutations`; row `num_url_combinations` is the first one stored past
its end, from source arrays that are still intact.  With the extension permuted the loop
goes on storing past the end of the array, over the arrays it reads from: what those
later stores hold is not determined, and they are not listed. -/
def url_permutations (permutateExtension : Bool) (dom ext : List Int) : List (List Int) :=
  ((List.range (strlen dom * 8 + 1)).flatMap (fun i =>
    if permutateExtension then
      (List.range (strlen ext * 8 + 1)).map (fun j =>
        url_row ((label_permutations dom).getD i []) (strlen dom)
          ((label_permutations ext).getD j []) (strlen ext))
    else
      [url_row ((label_permutations dom).getD i []) (strlen dom) ext (strlen ext)])).take
    (num_url_combinations permutateExtension dom ext + 1)

/-- The print loop: the lines written to standard output, in order.  It visits the rows
`0 .. num_url_combinations - 1`; `is_valid_url` is the validity predicate of
`regexer.h`, taken as a parameter. -/
def printed (is_valid_url : List Int → Bool) (permutateExtension : Bool)
    (dom ext : List Int) : List (List Int) :=
  (((url_permutations permutateExtension dom ext).take
    (num_url_combinations permutateExtension dom ext)).map c_str).filter is_valid_url

/-- The characters of a string literal as C character codes. -/
def lit (s : String) : List Int :=
  s.toList.map (fun c => (c.toNat : Int))

/-- The character code `c` with one bit complemented: `r` counts the bits of the
character from the most significant one (`r = 0`) to the least significant (`r = 7`). -/
def flip_bit (c : Int) (r : Nat) : Int :=
  ((c.toNat ^^^ 2 ^ (7 - r) : Nat) : Int)

/-- The string `s` with the bit at position `p` complemented; positions count the bits
of the whole string, eight a character, most significant first. -/
def complement_bit (s : List Int) (p : Nat) : List Int :=
  s.set (p / 8) (flip_bit (s.getD (p / 8) 0) (p % 8))

/-- The eight binary digits of a character code, most significant first, as the
characters `'0'` and `'1'`. -/
def bits8 (c : Int) : List Int :=
  [c / 128 % 2 + 48, c / 64 % 2 + 48, c / 32 % 2 + 48, c / 16 % 2 + 48,
   c / 8 % 2 + 48, c / 4 % 2 + 48, c / 2 % 2 + 48, c % 2 + 48]

/-- The number of positions at which two sequences differ. -/
def hamming : List Int → List Int → Nat
  | a :: as, b :: bs => (if a = b then 0 else 1) + hamming as bs
  | _, _ => 0

/-- The bit sequence of a string: what `get_binary_string` writes over `'0'` cells. -/
def encode (s : List Int) : List Int :=
  get_binary_string s.length s (List.replicate (8 * s.length) 48)

/-- The number of bits in which two strings of the same length differ: the distance
between their bit sequences, eight bits for each byte, most significant first. -/
def bit_distance (a b : List Int) : Nat :=
  hamming (a.flatMap bits8) (b.flatMap bits8)

/-- The class `[[:alnum:]]` of the pattern in `split_url`, in the C locale: the only
characters a domain label split from a URL is made of. -/
def is_alnum (c : Int) : Bool :=
  (48 ≤ c && c ≤ 57) || (65 ≤ c && c ≤ 90) || (97 ≤ c && c ≤ 122)

/-- The unsigned binary number that a sequence of `'0'` and `'1'` characters forms,
most significant digit first. -/
def binary_value (bits : List Int) : Int :=
  bits.foldl (fun acc b => 2 * acc + (b - 48)) 0

/-- The count of binary digits of `n` up to its leading one, by repeated halving; the
first argument bounds the number of halvings. -/
def significant_bits_loop : Nat → Nat → Nat
  | 0, _ => 0
  | fuel + 1, n => if n > 0 then significant_bits_loop fuel (n / 2) + 1 else 0

/-- The number of significant bits of a character code: 0 for a code that is zero or
negative, and otherwise the `k` with `2 ^ (k - 1) ≤ ch < 2 ^ k`. -/
def significant_bits (ch : Int) : Nat :=
  significant_bits_loop ch.toNat ch.toNat

/-- The C library call `sprintf(dst, "%.*s", precision, src)` seen from `dst`: at most
`precision` characters of the C string `src`; a negative precision counts as none
given. -/
def sprintf_precision (precision : Int) (src : List Int) : List Int :=
  if precision < 0 then c_str src else (c_str src).take precision.toNat

/-- The function `split_url(url, dom, ext)` of `bitsquat.c`, seen from `dom` and `ext`.
`match_regex` belongs to `regexer.h`; it is taken as a parameter that gives the values
`start` and `end` hold after the call.  Whatever `match_regex` returns is discarded, and
the function is declared `void`: it hands back the two labels and no status. -/
def split_url (match_regex : List Int → Int × Int) (url : List Int) :
    List Int × List Int :=
  (sprintf_precision (match_regex url).1 url,
   sprintf_precision ((strlen url : Int) - (match_regex url).2)
     (url.drop ((match_regex url).1 + 1).toNat))

/-- The value of `EXIT_SUCCESS`. -/
def EXIT_SUCCESS : Int := 0

/-- The value of `EXIT_FAILURE`. -/
def EXIT_FAILURE : Int := 1

/-- The function `main` from the test of `status` on: the exit status and the lines
written to standard output.  `status` is the value `main` reads in
`int status = split_url(url, dom, ext)`; `dom` and `ext` are the labels left in the
two buffers. -/
def main (status : Int) (is_valid_url : List Int → Bool) (permutateExtension : Bool)
    (dom ext : List Int) : Int × List (List Int) :=
  if status ≠ EXIT_SUCCESS then (EXIT_FAILURE, [])
  else (EXIT_SUCCESS, printed is_valid_url permutateExtension dom ext)

/-! ## The codec: `to_binary` and `get_binary_string` -/

theorem length_store (arr : List Int) (p v : Int) : (store arr p v).length = arr.length := by
  unfold store
  split <;> simp

theorem to_binary_loop_nonpos (fuel : Nat) (ch p : Int) (arr : List Int) (h : ch ≤ 0) :
    to_binary_loop fuel ch p arr = arr := by
  cases fuel with
  | zero => rfl
  | succ n =>
    have : ¬ ch > 0 := by omega
    simp [to_binary_loop, this]

theorem to_binary_loop_mono (n : Nat) : ∀ (m : Nat) (ch p : Int) (arr : List Int),
    ch.toNat ≤ n → ch.toNat ≤ m → to_binary_loop n ch p arr = to_binary_loop m ch p arr := by
  induction n with
  | zero =>
    intro m ch p arr hn _
    have h0 : ch ≤ 0 := by omega
    rw [to_binary_loop_nonpos _ _ _ _ h0, to_binary_loop_nonpos _ _ _ _ h0]
  | succ n ih =>
    intro m ch p arr hn hm
    by_cases hc : ch > 0
    · cases m with
      | zero => omega
      | succ m =>
        simp only [to_binary_loop, hc, if_true]
        apply ih <;> omega
    · have h0 : ch ≤ 0 := by omega
      rw [to_binary_loop_nonpos _ _ _ _ h0, to_binary_loop_nonpos _ _ _ _ h0]

/-- The loop of `to_binary` always ends by its own test: any bound of at least
`ch.toNat` iterations gives the result of `to_binary`. -/
theorem to_binary_loop_fuel (fuel : Nat) (ch p : Int) (arr : List Int)
    (h : ch.toNat ≤ fuel) : to_binary_loop fuel ch p arr = to_binary ch p arr :=
  to_binary_loop_mono fuel ch.toNat ch p arr h (Nat.le_refl _)

theorem to_binary_loop_append_right (fuel : Nat) : ∀ (ch p : Int) (mid post : List Int),
    p < mid.length →
    to_binary_loop fuel ch p (mid ++ post) = to_binary_loop fuel ch p mid ++ post := by
  induction fuel with
  | zero => intros; rfl
  | succ n ih =>
    intro ch p mid post hp
    simp only [to_binary_loop]
    split
    · have hs : store (mid ++ post) p (ch % 2 + 48) = store mid p (ch % 2 + 48) ++ post := by
        unfold store
        split
        · rw [List.set_append_left]; omega
        · rfl
      rw [hs]
      apply ih
      rw [length_store]; omega
    · rfl

theorem to_binary_loop_append_left (fuel : Nat) : ∀ (ch : Int) (q : Nat) (pre mid : List Int),
    0 ≤ ch → ch < 2 ^ (q + 1) →
    to_binary_loop fuel ch ((pre.length : Int) + q) (pre ++ mid)
      = pre ++ to_binary_loop fuel ch q mid := by
  induction fuel with
  | zero => intros; rfl
  | succ n ih =>
    intro ch q pre mid h0 hlt
    simp only [to_binary_loop]
    split
    · have hs : store (pre ++ mid) ((pre.length : Int) + q) (ch % 2 + 48)
          = pre ++ store mid q (ch % 2 + 48) := by
        unfold store
        have h1 : (0 : Int) ≤ (pre.length : Int) + q := by omega
        have h2 : (0 : Int) ≤ (q : Int) := by omega
        have h3 : ((pre.length : Int) + q).toNat = pre.length + q := by omega
        simp only [h1, h2, if_true, h3, Int.toNat_ofNat]
        rw [List.set_append_right _ _ (by omega)]
        simp
      rw [hs]
      cases q with
      | zero =>
        have hz : ch / 2 ≤ 0 := by
          have : ch < 2 := by simpa using hlt
          omega
        rw [to_binary_loop_nonpos _ _ _ _ hz, to_binary_loop_nonpos _ _ _ _ hz]
      | succ q =>
        have e1 : (pre.length : Int) + ((q + 1 : Nat) : Int) - 1 = (pre.length : Int) + (q : Nat) := by
          push_cast; ring
        have e2 : (((q + 1 : Nat) : Int)) - 1 = ((q : Nat) : Int) := by push_cast; ring
        rw [e1, e2]
        apply ih
        · omega
        · have : ch < 2 ^ (q + 1) * 2 := by rw [← pow_succ]; exact hlt
          omega
    · rfl

theorem to_binary_zeros (c : Int) (h0 : 0 ≤ c) (h1 : c ≤ 255) :
    to_binary c 7 (List.replicate 8 48) = bits8 c := by
  interval_cases c <;> rfl

theorem length_bits8 (c : Int) : (bits8 c).length = 8 := rfl

theorem length_flatMap_bits8 (s : List Int) : (s.flatMap bits8).length = 8 * s.length := by
  induction s with
  | nil => rfl
  | cons c t ih => simp [List.flatMap_cons, length_bits8, ih]; omega

/-- One call of `to_binary` from `get_binary_string`: on a group of eight `'0'` cells it
leaves the eight digits of the character and touches nothing else. -/
theorem to_binary_group (c : Int) (h0 : 0 ≤ c) (h1 : c ≤ 255) (pre post : List Int) :
    to_binary c ((pre.length : Int) + 7) (pre ++ (List.replicate 8 48 ++ post))
      = pre ++ (bits8 c ++ post) := by
  have hlt : c < 2 ^ (7 + 1) := by norm_num; omega
  have h := to_binary_loop_append_left c.toNat c 7 pre (List.replicate 8 48 ++ post) h0 hlt
  have h7 : ((7 : Nat) : Int) = 7 := rfl
  rw [h7] at h
  unfold to_binary
  rw [h, to_binary_loop_append_right _ _ _ _ _ (by simp)]
  have := to_binary_zeros c h0 h1
  unfold to_binary at this
  rw [this]

theorem char_to_int_ascii (c : Int) (h0 : 0 ≤ c) (h1 : c ≤ 127) : char_to_int c = c := by
  unfold char_to_int
  omega

theorem get_binary_string_loop_spec (t : List Int) : ∀ (a pre post : List Int),
    (∀ c ∈ t, 0 ≤ c ∧ c ≤ 127) → pre.length = 8 * a.length →
    get_binary_string_loop t.length a.length (8 * (a.length : Int) + 7) (a ++ t)
        (pre ++ (List.replicate (8 * t.length) 48 ++ post))
      = pre ++ (t.flatMap bits8 ++ post) := by
  induction t with
  | nil => intro a pre post _ _; simp [get_binary_string_loop]
  | cons c t ih =>
    intro a pre post hc hpre
    have hcc := hc c (List.mem_cons_self _ _)
    have hget : (a ++ c :: t).getD a.length 0 = c := by
      rw [List.getD_eq_getElem?_getD, List.getElem?_append_right (Nat.le_refl _)]
      simp
    have hrep : List.replicate (8 * (c :: t).length) (48 : Int)
        = List.replicate 8 48 ++ List.replicate (8 * t.length) 48 := by
      rw [← List.replicate_add]; congr 1; simp; omega
    have hpos : 8 * (a.length : Int) + 7 = (pre.length : Int) + 7 := by
      rw [hpre]; push_cast; ring
    simp only [List.length_cons, get_binary_string_loop, hget,
      char_to_int_ascii c hcc.1 hcc.2]
    rw [show 8 * (t.length + 1) = 8 * (c :: t).length from rfl, hrep, List.append_assoc, hpos,
      to_binary_group c hcc.1 (by omega)]
    have h := ih (a ++ [c]) (pre ++ bits8 c) post
      (fun x hx => hc x (List.mem_cons_of_mem _ hx))
      (by simp [length_bits8, hpre]; omega)
    have e1 : (a ++ [c]).length = a.length + 1 := by simp
    have e2 : 8 * (((a ++ [c]).length : Nat) : Int) + 7 = (pre.length : Int) + 7 + 8 := by
      rw [e1, hpre]; push_cast; ring
    rw [e1] at h
    rw [e1] at e2
    rw [e2] at h
    simp only [List.append_assoc, List.singleton_append, List.flatMap_cons] at h ⊢
    exact h

/-- The encoder on a buffer of `'0'` cells, for bytes below 128: the digits of each
character in turn. -/
theorem get_binary_string_zeros (s : List Int) (hs : ∀ c ∈ s, 0 ≤ c ∧ c ≤ 127) :
    get_binary_string s.length s (List.replicate (8 * s.length) 48) = s.flatMap bits8 := by
  have h := get_binary_string_loop_spec s [] [] [] hs rfl
  simpa [get_binary_string] using h

/-! ## The codec: `to_character` and `get_string` -/

theorem strtol2_bits8 (c : Int) (h0 : 0 ≤ c) (h1 : c ≤ 255) :
    strtol2 (c_str (bits8 c ++ [0])) % 256 = c := by
  interval_cases c <;> rfl

theorem take_succ_set (out : List Int) : ∀ (i : Nat) (c : Int), i < out.length →
    (out.set i c).take (i + 1) = out.take i ++ [c] := by
  induction out with
  | nil => intro i c h; simp at h
  | cons x xs ih =>
    intro i c h
    cases i with
    | zero => simp
    | succ i => simp at h; simp [ih i c h]

theorem get_string_loop_spec (t : List Int) : ∀ (fuel i : Nat) (pre post out : List Int),
    (∀ c ∈ t, 0 ≤ c ∧ c ≤ 255) → t.length ≤ fuel → i + t.length ≤ out.length →
    get_string_loop fuel i pre.length (pre.length + 8 * t.length)
        (pre ++ (t.flatMap bits8 ++ post)) out
      = out.take i ++ (t ++ out.drop (i + t.length)) := by
  induction t with
  | nil =>
    intro fuel i pre post out _ _ _
    cases fuel <;> simp [get_string_loop]
  | cons c t ih =>
    intro fuel i pre post out hc hf hi
    have hcc := hc c (List.mem_cons_self _ _)
    cases fuel with
    | zero => simp at hf
    | succ f =>
      have hlt : pre.length < pre.length + 8 * (c :: t).length := by simp
      have hcpy : memcpy (pre ++ ((c :: t).flatMap bits8 ++ post)) pre.length 8 = bits8 c := by
        unfold memcpy
        rw [List.drop_left, List.flatMap_cons, List.append_assoc]
        rw [List.take_left' (length_bits8 c)]
      simp only [get_string_loop, hlt, if_true, hcpy, to_character, strtol2_bits8 c hcc.1 hcc.2]
      have h := ih f (i + 1) (pre ++ bits8 c) post (out.set i c)
        (fun x hx => hc x (List.mem_cons_of_mem _ hx))
        (by simp at hf; omega) (by simp at hi ⊢; omega)
      have e1 : (pre ++ bits8 c).length = pre.length + 8 := by simp [length_bits8]
      have e2 : pre.length + 8 + 8 * t.length = pre.length + 8 * (c :: t).length := by
        simp; omega
      rw [e1, e2] at h
      simp only [List.append_assoc, List.flatMap_cons] at h ⊢
      rw [h]
      have hil : i < out.length := by simp at hi; omega
      have t1 : (out.set i c).take (i + 1) = out.take i ++ [c] := by
        exact take_succ_set out i c hil
      have t2 : (out.set i c).drop (i + 1 + t.length) = out.drop (i + (c :: t).length) := by
        rw [List.drop_set_of_lt _ _ (by omega)]
        congr 1; simp; omega
      rw [t1, t2]; simp

theorem get_string_loop_mono (f1 : Nat) : ∀ (f2 i byte n : Nat) (bin out : List Int),
    n ≤ byte + 8 * f1 → n ≤ byte + 8 * f2 →
    get_string_loop f1 i byte n bin out = get_string_loop f2 i byte n bin out := by
  induction f1 with
  | zero =>
    intro f2 i byte n bin out h1 _
    have hb : ¬ byte < n := by omega
    cases f2 <;> simp [get_string_loop, hb]
  | succ f1 ih =>
    intro f2 i byte n bin out h1 h2
    by_cases hb : byte < n
    · cases f2 with
      | zero => omega
      | succ f2 =>
        simp only [get_string_loop, hb, if_true]
        apply ih <;> omega
    · cases f2 <;> simp [get_string_loop, hb]

/-- The loop of `get_string` always ends by its own test: any bound of at least
`binary_str_length` iterations gives the result of `get_string`. -/
theorem get_string_loop_fuel (fuel n : Nat) (bin out : List Int) (h : n ≤ fuel) :
    get_string_loop fuel 0 0 n bin out = get_string n bin out :=
  get_string_loop_mono fuel n 0 0 n bin out (by omega) (by omega)

/-- The decoder on the digits of a string followed by anything: the string is written
at the front of `out` and the other cells of `out` are kept. -/
theorem get_string_flatMap (t post out : List Int) (ht : ∀ c ∈ t, 0 ≤ c ∧ c ≤ 255)
    (hout : t.length ≤ out.length) :
    get_string (8 * t.length) (t.flatMap bits8 ++ post) out = t ++ out.drop t.length := by
  have h := get_string_loop_spec t (8 * t.length) 0 [] post out ht (by omega) (by omega)
  simpa [get_string] using h

theorem ascii_range (s : List Int) (hs : ∀ c ∈ s, 0 ≤ c ∧ c ≤ 127) :
    ∀ c ∈ s, 0 ≤ c ∧ c ≤ 255 := by
  intro c hc
  have := hs c hc
  omega

/-- C1, as amended. Round trip for ASCII: for a string `s` whose bytes lie in `0..127`,
decoding with `get_string` the `8 * len(s)` digits that `get_binary_string` writes over
a buffer of `'0'` gives the characters of `s` in `out[0 .. len(s))` and keeps the rest
of `out`. -/
theorem round_trip (s out : List Int) (hs : ∀ c ∈ s, 0 ≤ c ∧ c ≤ 127)
    (hout : s.length ≤ out.length) :
    get_string (8 * s.length)
        (get_binary_string s.length s (List.replicate (8 * s.length) 48)) out
      = s ++ out.drop s.length := by
  rw [get_binary_string_zeros s hs]
  have h := get_string_flatMap s [] out (ascii_range s hs) hout
  simpa using h

/-- C1 as stated fails: the one-character string of byte 233 is read by
`get_binary_string` as the negative `char` -23, for which `to_binary` writes nothing;
the eight cells stay `'0'` and decode to the byte 0, not to 233. -/
theorem round_trip_fails_above_127 :
    char_to_int 233 = -23 ∧
    get_binary_string 1 [233] (List.replicate (8 * 1) 48) = List.replicate 8 48 ∧
    get_string (8 * 1) (get_binary_string 1 [233] (List.replicate (8 * 1) 48)) [7]
      = [0] := by
  decide

/-- Witness of `round_trip`: the label `"ab"` decoded into a buffer of four cells. -/
theorem round_trip_witness :
    (∀ c ∈ lit "ab", 0 ≤ c ∧ c ≤ 127) ∧ (lit "ab").length ≤ [7, 7, 7, 7].length ∧
    get_string (8 * (lit "ab").length)
        (get_binary_string (lit "ab").length (lit "ab")
          (List.replicate (8 * (lit "ab").length) 48)) [7, 7, 7, 7]
      = lit "ab" ++ [7, 7] :=
  ⟨by decide, by decide, round_trip (lit "ab") [7, 7, 7, 7] (by decide) (by decide)⟩

/-! ## The flip generator -/

theorem fill_permutations_eq (bits : List Int) :
    fill_permutations bits bits.length = List.replicate (bits.length + 1) (bits ++ [0]) := by
  have hrow : (memcpy (bits ++ [0]) 0 (bits.length + 1)).set bits.length 0 = bits ++ [0] := by
    have h1 : memcpy (bits ++ [0]) 0 (bits.length + 1) = bits ++ [0] := by
      unfold memcpy
      rw [List.drop_zero]
      exact List.take_of_length_le (by simp)
    rw [h1, List.set_append_right _ _ (Nat.le_refl _)]
    simp
  unfold fill_permutations
  rw [hrow]
  apply List.ext_getElem
  · simp
  · intro i h1 h2
    simp

theorem length_flip_loop (left : Nat) : ∀ (i : Nat) (rows : List (List Int)),
    (flip_loop left i rows).length = rows.length := by
  induction left with
  | zero => intros; rfl
  | succ n ih => intro i rows; simp [flip_loop, ih]

/-- Row `k` after the flip loop: rows `i .. i + left - 1` have their diagonal cell
replaced, the others are the rows before the loop. -/
theorem flip_loop_row (left : Nat) : ∀ (i k : Nat) (rows : List (List Int)),
    (flip_loop left i rows).getD k []
      = if i ≤ k ∧ k < i + left then
          (rows.getD k []).set k (flip_char ((rows.getD k []).getD k 0))
        else rows.getD k [] := by
  induction left with
  | zero =>
    intro i k rows
    have h0 : ¬ (i ≤ k ∧ k < i + 0) := by omega
    rw [if_neg h0]
    rfl
  | succ n ih =>
    intro i k rows
    simp only [flip_loop]
    rw [ih]
    by_cases hk : k = i
    · subst hk
      have h1 : ¬ (k + 1 ≤ k ∧ k < k + 1 + n) := by omega
      have h2 : k ≤ k ∧ k < k + (n + 1) := by omega
      rw [if_neg h1, if_pos h2]
      by_cases hlen : k < rows.length
      · simp [List.getD_eq_getElem?_getD, List.getElem?_set, hlen]
      · have hnone : rows[k]? = none := List.getElem?_eq_none (by omega)
        rw [List.set_eq_of_length_le (by omega)]
        simp [List.getD_eq_getElem?_getD, hnone]
    · have hset : (rows.set i ((rows.getD i []).set i (flip_char ((rows.getD i []).getD i 0)))).getD k []
          = rows.getD k [] := by
        simp only [List.getD_eq_getElem?_getD]
        rw [List.getElem?_set_ne (by omega)]
      rw [hset]
      have hiff : (i + 1 ≤ k ∧ k < i + 1 + n) ↔ (i ≤ k ∧ k < i + (n + 1)) := by omega
      simp only [hiff]

/-- Row `k` of the bit rows built in `main` from a sequence of `bits.length` cells. -/
theorem binary_permutations_row (bits : List Int) (k : Nat) (hk : k ≤ bits.length) :
    (binary_permutations bits bits.length).getD k []
      = if 1 ≤ k then (bits ++ [0]).set k (flip_char ((bits ++ [0]).getD k 0))
        else bits ++ [0] := by
  unfold binary_permutations
  rw [flip_loop_row, fill_permutations_eq]
  have hrow : (List.replicate (bits.length + 1) (bits ++ [0])).getD k [] = bits ++ [0] := by
    have hlt : k < bits.length + 1 := by omega
    simp [List.getD_eq_getElem?_getD, List.getElem?_replicate, hlt]
  rw [hrow]
  have hiff : (1 ≤ k ∧ k < 1 + bits.length) ↔ 1 ≤ k := by omega
  simp only [hiff]

theorem binary_permutations_row_inner (bits : List Int) (k : Nat) (h1 : 1 ≤ k)
    (hk : k < bits.length) :
    (binary_permutations bits bits.length).getD k []
      = bits.set k (flip_char (bits.getD k 0)) ++ [0] := by
  rw [binary_permutations_row bits k (by omega), if_pos h1]
  rw [List.set_append_left _ _ hk]
  simp [List.getD_eq_getElem?_getD, List.getElem?_append_left hk]

theorem binary_permutations_row_last (bits : List Int) (h1 : 1 ≤ bits.length) :
    (binary_permutations bits bits.length).getD bits.length [] = bits ++ [49] := by
  rw [binary_permutations_row bits bits.length (Nat.le_refl _), if_pos h1]
  rw [List.set_append_right _ _ (Nat.le_refl _)]
  simp [List.getD_eq_getElem?_getD, List.getElem?_append_right (Nat.le_refl bits.length),
    flip_char]

theorem binary_permutations_row_zero (bits : List Int) :
    (binary_permutations bits bits.length).getD 0 [] = bits ++ [0] := by
  rw [binary_permutations_row bits 0 (Nat.zero_le _)]
  simp

theorem length_binary_permutations (bits : List Int) (n : Nat) :
    (binary_permutations bits n).length = n + 1 := by
  unfold binary_permutations
  rw [length_flip_loop]
  simp [fill_permutations]

/-- C3. Size of the variant set and identity slot: for a bit sequence of `N` cells the
rows built in `main` are `N + 1` in number and row 0 is the sequence itself, followed by
the terminator. -/
theorem variant_set_size_and_identity (bits : List Int) :
    (binary_permutations bits bits.length).length = bits.length + 1 ∧
    (binary_permutations bits bits.length).getD 0 [] = bits ++ [0] :=
  ⟨length_binary_permutations bits bits.length, binary_permutations_row_zero bits⟩

/-- C2, at the input where the code departs from it: for the eight bits of `"a"`, row 8
of the variant set (the last index the flip loop visits) has its terminator cell turned
into `'1'` and its eight bits equal to the original ones, so it differs from the
original in no bit at all; row 7, by contrast, has bit 7 complemented. -/
theorem flip_loop_last_row_unflipped :
    binary_str (lit "a") = [48, 49, 49, 48, 48, 48, 48, 49] ∧
    (binary_permutations (binary_str (lit "a")) 8).getD 8 []
      = [48, 49, 49, 48, 48, 48, 48, 49, 49] ∧
    memcpy ((binary_permutations (binary_str (lit "a")) 8).getD 8 []) 0 8
      = binary_str (lit "a") ∧
    (binary_permutations (binary_str (lit "a")) 8).getD 7 []
      = [48, 49, 49, 48, 48, 48, 48, 48, 0] := by
  decide

/-! ## Complementing one bit of a string -/

theorem bits8_flip_fin : ∀ (c : Fin 256) (r : Fin 8),
    (bits8 (c.val : Int)).set r.val (flip_char ((bits8 (c.val : Int)).getD r.val 0))
      = bits8 (flip_bit (c.val : Int) r.val) ∧ flip_bit (c.val : Int) r.val ≤ 255 := by
  decide!

theorem bits8_flip (c : Int) (r : Nat) (h0 : 0 ≤ c) (h1 : c ≤ 255) (hr : r < 8) :
    (bits8 c).set r (flip_char ((bits8 c).getD r 0)) = bits8 (flip_bit c r) ∧
    0 ≤ flip_bit c r ∧ flip_bit c r ≤ 255 := by
  have h := bits8_flip_fin ⟨c.toNat, by omega⟩ ⟨r, hr⟩
  have hc : ((c.toNat : Nat) : Int) = c := Int.toNat_of_nonneg h0
  simp only [hc] at h
  exact ⟨h.1, by unfold flip_bit; exact Int.ofNat_nonneg _, h.2⟩

theorem flatMap_bits8_set (s : List Int) : ∀ (q r : Nat), q < s.length → r < 8 →
    (∀ c ∈ s, 0 ≤ c ∧ c ≤ 255) →
    (s.flatMap bits8).set (8 * q + r) (flip_char ((s.flatMap bits8).getD (8 * q + r) 0))
      = (s.set q (flip_bit (s.getD q 0) r)).flatMap bits8 := by
  induction s with
  | nil => intro q r hq; simp at hq
  | cons c t ih =>
    intro q r hq hr hs
    have hcc := hs c (List.mem_cons_self _ _)
    cases q with
    | zero =>
      have hlt : r < (bits8 c).length := by rw [length_bits8]; exact hr
      simp only [List.flatMap_cons, Nat.mul_zero, Nat.zero_add, List.set_cons_zero]
      rw [List.set_append_left _ _ hlt]
      have hg : (bits8 c ++ t.flatMap bits8).getD r 0 = (bits8 c).getD r 0 := by
        simp only [List.getD_eq_getElem?_getD]
        rw [List.getElem?_append_left hlt]
      rw [hg]
      have hd : (c :: t).getD 0 0 = c := rfl
      rw [hd, (bits8_flip c r hcc.1 hcc.2 hr).1]
    | succ q =>
      have hq2 : q < t.length := by simpa using hq
      have hle : (bits8 c).length ≤ 8 * (q + 1) + r := by rw [length_bits8]; omega
      have hsub : 8 * (q + 1) + r - (bits8 c).length = 8 * q + r := by
        rw [length_bits8]; omega
      simp only [List.flatMap_cons, List.set_cons_succ]
      rw [List.set_append_right _ _ hle, hsub]
      have hg : (bits8 c ++ t.flatMap bits8).getD (8 * (q + 1) + r) 0
          = (t.flatMap bits8).getD (8 * q + r) 0 := by
        simp only [List.getD_eq_getElem?_getD]
        rw [List.getElem?_append_right hle, hsub]
      have hd : (c :: t).getD (q + 1) 0 = t.getD q 0 := rfl
      rw [hg, hd, ih q r hq2 hr (fun x hx => hs x (List.mem_cons_of_mem _ hx))]

theorem length_complement_bit (s : List Int) (p : Nat) :
    (complement_bit s p).length = s.length := by
  simp [complement_bit]

theorem complement_bit_range (s : List Int) (p : Nat) (hs : ∀ c ∈ s, 0 ≤ c ∧ c ≤ 255) :
    ∀ c ∈ complement_bit s p, 0 ≤ c ∧ c ≤ 255 := by
  intro c hc
  unfold complement_bit at hc
  rcases List.mem_or_eq_of_mem_set hc with h | h
  · exact hs c h
  · by_cases hq : p / 8 < s.length
    · have hmem : s.getD (p / 8) 0 ∈ s := by
        rw [List.getD_eq_getElem?_getD, List.getElem?_eq_getElem hq]
        exact List.getElem_mem _
      have hb := hs _ hmem
      have := bits8_flip (s.getD (p / 8) 0) (p % 8) hb.1 hb.2 (Nat.mod_lt _ (by decide))
      rw [h]; exact this.2
    · rw [List.set_eq_of_length_le (by omega)] at hc
      exact hs c hc

/-- Flipping cell `p` of the digits of a string gives the digits of the string with
bit `p` complemented. -/
theorem flatMap_bits8_flip (s : List Int) (p : Nat) (hp : p < 8 * s.length)
    (hs : ∀ c ∈ s, 0 ≤ c ∧ c ≤ 255) :
    (s.flatMap bits8).set p (flip_char ((s.flatMap bits8).getD p 0))
      = (complement_bit s p).flatMap bits8 := by
  have h := flatMap_bits8_set s (p / 8) (p % 8) (by omega) (Nat.mod_lt _ (by decide)) hs
  have e : 8 * (p / 8) + p % 8 = p := Nat.div_add_mod p 8
  rw [e] at h
  exact h

/-! ## The decoded variants of a label -/

theorem c_str_append_zero (s rest : List Int) (hs : ∀ c ∈ s, c ≠ 0) :
    c_str (s ++ 0 :: rest) = s := by
  induction s with
  | nil => simp [c_str]
  | cons c t ih =>
    have hc : c ≠ 0 := hs c (List.mem_cons_self _ _)
    have ht := ih (fun x hx => hs x (List.mem_cons_of_mem _ hx))
    unfold c_str at ht ⊢
    simp [List.takeWhile_cons, hc, ht]

theorem c_str_of_no_zero (s : List Int) (hs : ∀ c ∈ s, c ≠ 0) : c_str s = s := by
  induction s with
  | nil => simp [c_str]
  | cons c t ih =>
    have hc : c ≠ 0 := hs c (List.mem_cons_self _ _)
    have ht := ih (fun x hx => hs x (List.mem_cons_of_mem _ hx))
    unfold c_str at ht ⊢
    simp [List.takeWhile_cons, hc, ht]

theorem strlen_of_no_zero (s : List Int) (hs : ∀ c ∈ s, c ≠ 0) : strlen s = s.length := by
  have h := c_str_of_no_zero s hs
  unfold c_str at h
  unfold strlen
  rw [h]

theorem memcpy_strlen (s : List Int) : memcpy s 0 (strlen s) = c_str s := by
  unfold memcpy strlen c_str
  induction s with
  | nil => simp
  | cons c t ih =>
    by_cases hc : c = 0
    · simp [List.takeWhile_cons, hc]
    · simp only [List.drop_zero] at ih
      simp [List.takeWhile_cons, hc, ih]

theorem label_no_zero (s : List Int) (hs : ∀ c ∈ s, 1 ≤ c ∧ c ≤ 255) : ∀ c ∈ s, c ≠ 0 := by
  intro c hc
  have := hs c hc
  omega

theorem label_range (s : List Int) (hs : ∀ c ∈ s, 1 ≤ c ∧ c ≤ 255) :
    ∀ c ∈ s, 0 ≤ c ∧ c ≤ 255 := by
  intro c hc
  have := hs c hc
  omega

theorem ascii_label (s : List Int) (hs : ∀ c ∈ s, 1 ≤ c ∧ c ≤ 127) :
    ∀ c ∈ s, 1 ≤ c ∧ c ≤ 255 := by
  intro c hc
  have := hs c hc
  omega

theorem ascii_code (s : List Int) (hs : ∀ c ∈ s, 1 ≤ c ∧ c ≤ 127) :
    ∀ c ∈ s, 0 ≤ c ∧ c ≤ 127 := by
  intro c hc
  have := hs c hc
  omega

theorem binary_str_eq (s : List Int) (hs : ∀ c ∈ s, 1 ≤ c ∧ c ≤ 127) :
    binary_str s = s.flatMap bits8 := by
  unfold binary_str
  rw [strlen_of_no_zero s (label_no_zero s (ascii_label s hs)), Nat.mul_comm]
  exact get_binary_string_zeros s (ascii_code s hs)

theorem getD_map_range (f : Nat → List Int) (n k : Nat) (hk : k < n) :
    ((List.range n).map f).getD k [] = f k := by
  simp [List.getD_eq_getElem?_getD, List.getElem?_range hk]

theorem decode_row (t : List Int) (post : Int) (ht : ∀ c ∈ t, 0 ≤ c ∧ c ≤ 255) :
    (get_string (8 * t.length) (t.flatMap bits8 ++ [post])
      (List.replicate (t.length + 1) 0)).set t.length 0 = t ++ [0] := by
  rw [get_string_flatMap t [post] _ ht (by simp)]
  have hd : List.drop t.length (List.replicate (t.length + 1) (0 : Int)) = [0] := by
    simp
  rw [hd, List.set_append_right _ _ (Nat.le_refl _)]
  simp

/-- Row `k` of the decoded variants of an ASCII label of `L` characters: the label with
bit `k` complemented for `1 ≤ k < 8 * L`, and the label itself for `k = 0` and for
`k = 8 * L`; each followed by the terminator. -/
theorem label_permutations_row (s : List Int) (ha : ∀ c ∈ s, 1 ≤ c ∧ c ≤ 127) (k : Nat)
    (hk : k ≤ 8 * s.length) :
    (label_permutations s).getD k []
      = (if 1 ≤ k ∧ k < 8 * s.length then complement_bit s k else s) ++ [0] := by
  have hs := ascii_label s ha
  have hr := label_range s hs
  have hlen : strlen s * 8 = (s.flatMap bits8).length := by
    rw [strlen_of_no_zero s (label_no_zero s hs), length_flatMap_bits8, Nat.mul_comm]
  have hL : strlen s = s.length := strlen_of_no_zero s (label_no_zero s hs)
  have hbl : (s.flatMap bits8).length = 8 * s.length := length_flatMap_bits8 s
  unfold label_permutations str_permutations
  rw [getD_map_range _ _ _ (by rw [hlen, hbl]; omega), binary_str_eq s ha, hlen]
  by_cases h0 : 1 ≤ k
  · by_cases hlt : k < 8 * s.length
    · rw [binary_permutations_row_inner _ k h0 (by rw [hbl]; exact hlt),
        flatMap_bits8_flip s k hlt hr, if_pos ⟨h0, hlt⟩, hL, hbl]
      have hcl := length_complement_bit s k
      have h := decode_row (complement_bit s k) 0 (complement_bit_range s k hr)
      rw [hcl] at h
      exact h
    · have hk2 : k = (s.flatMap bits8).length := by rw [hbl]; omega
      have hn : ¬ (1 ≤ k ∧ k < 8 * s.length) := by omega
      rw [if_neg hn, hk2, binary_permutations_row_last _ (by omega), hL, hbl]
      exact decode_row s 49 hr
  · have hk0 : k = 0 := by omega
    have hn : ¬ (1 ≤ k ∧ k < 8 * s.length) := by omega
    rw [if_neg hn, hk0, binary_permutations_row_zero, hL, hbl]
    exact decode_row s 0 hr

/-! ## The combiner -/

theorem flatMap_singleton_range (f : Nat → List Int) (n : Nat) :
    (List.range n).flatMap (fun i => [f i]) = (List.range n).map f := by
  induction n with
  | zero => rfl
  | succ n ih => simp [List.range_succ, List.flatMap_append, ih]

theorem url_permutations_false (dom ext : List Int) :
    url_permutations false dom ext
      = (List.range (strlen dom * 8 + 1)).map (fun i =>
          url_row ((label_permutations dom).getD i []) (strlen dom) ext (strlen ext)) := by
  unfold url_permutations
  simp only [Bool.false_eq_true, if_false]
  rw [flatMap_singleton_range]
  apply List.take_of_length_le
  simp [num_url_combinations]

theorem url_row_eq (d e : List Int) (n : Nat) :
    url_row d n e (strlen e) = d.take n ++ [46] ++ c_str e ++ [0] := by
  unfold url_row
  rw [memcpy_strlen]
  simp [memcpy]

theorem length_flatMap_range (f : Nat → Nat → List Int) (m n : Nat) :
    ((List.range n).flatMap (fun i => (List.range m).map (f i))).length = n * m := by
  induction n with
  | zero => simp
  | succ n ih =>
    rw [List.range_succ, List.flatMap_append, List.length_append, ih]
    simp [Nat.succ_mul]

theorem getD_flatMap_range (f : Nat → Nat → List Int) (m n : Nat) :
    ∀ (i j : Nat), i < n → j < m →
    ((List.range n).flatMap (fun i => (List.range m).map (f i))).getD (i * m + j) []
      = f i j := by
  induction n with
  | zero => intro i j hi; omega
  | succ n ih =>
    intro i j hi hj
    rw [List.range_succ, List.flatMap_append, List.getD_eq_getElem?_getD]
    by_cases hin : i < n
    · have hlt : i * m + j
          < ((List.range n).flatMap (fun i => (List.range m).map (f i))).length := by
        rw [length_flatMap_range]
        calc i * m + j < i * m + m := by omega
          _ = (i + 1) * m := by rw [Nat.succ_mul]
          _ ≤ n * m := Nat.mul_le_mul_right m hin
      rw [List.getElem?_append_left hlt, ← List.getD_eq_getElem?_getD]
      exact ih i j hin hj
    · have hi2 : i = n := by omega
      subst hi2
      have hle : ((List.range i).flatMap (fun i => (List.range m).map (f i))).length
          ≤ i * m + j := by
        rw [length_flatMap_range]; omega
      rw [List.getElem?_append_right hle, length_flatMap_range]
      have hsub : i * m + j - i * m = j := by omega
      rw [hsub]
      simp [List.getElem?_range hj, hj]

/-- C6. Combiner, extension not permuted: for a domain label of `L` characters the combine
loop stores exactly `8 * L + 1` candidates, and candidate `i` is the `L` characters of
decoded domain variant `i`, then `"."`, then the extension, then the terminator. -/
theorem combiner_fixed_extension (dom ext : List Int) :
    (url_permutations false dom ext).length = 8 * strlen dom + 1 ∧
    ∀ i, i ≤ 8 * strlen dom →
      (url_permutations false dom ext).getD i []
        = ((label_permutations dom).getD i []).take (strlen dom) ++ [46] ++ c_str ext ++ [0] := by
  rw [url_permutations_false]
  constructor
  · simp; omega
  · intro i hi
    rw [getD_map_range _ _ _ (by omega), url_row_eq]

theorem getD_take (rows : List (List Int)) (n k : Nat) (hk : k < n) :
    (rows.take n).getD k [] = rows.getD k [] := by
  rw [List.getD_eq_getElem?_getD, List.getD_eq_getElem?_getD, List.getElem?_take_of_lt hk]

/-- Rows of the combine loop with the extension permuted, up to the first one stored
past the end of the array: row `i * (8E+1) + j` is domain variant `i`, `"."`, extension
variant `j` and the terminator. -/
theorem url_permutations_true_row (dom ext : List Int) (i j : Nat)
    (hi : i ≤ 8 * strlen dom) (hj : j ≤ 8 * strlen ext)
    (hb : i * (8 * strlen ext + 1) + j ≤ num_url_combinations true dom ext) :
    (url_permutations true dom ext).getD (i * (8 * strlen ext + 1) + j) []
      = ((label_permutations dom).getD i []).take (strlen dom) ++ [46]
        ++ ((label_permutations ext).getD j []).take (strlen ext) ++ [0] := by
  have hd : strlen dom * 8 = 8 * strlen dom := Nat.mul_comm _ _
  have he : strlen ext * 8 = 8 * strlen ext := Nat.mul_comm _ _
  unfold url_permutations
  rw [getD_take _ _ _ (by omega)]
  simp only [if_true, hd, he]
  rw [getD_flatMap_range _ _ _ i j (by omega) (by omega)]
  simp [url_row, memcpy]

theorem length_url_permutations (permutateExtension : Bool) (dom ext : List Int) :
    (url_permutations permutateExtension dom ext).length
      = num_url_combinations permutateExtension dom ext + 1 := by
  unfold url_permutations
  rw [List.length_take]
  cases permutateExtension with
  | false =>
    simp only [Bool.false_eq_true, if_false]
    rw [flatMap_singleton_range]
    simp [num_url_combinations]
  | true =>
    simp only [if_true]
    rw [length_flatMap_range]
    simp only [num_url_combinations, if_true]
    have e : (strlen dom * 8 + 1) * (strlen ext * 8 + 1)
        = strlen dom * 8 * (strlen ext * 8) + strlen dom * 8 + strlen ext * 8 + 1 := by ring
    omega

/-- C7, at the input where the code departs from it.  For the domain `"a"` and the
extension `"c"`, permuted, the combine loop stores 81 rows where `url_permutations` has
64: the rows numbered 64 to 80, the last of the Cartesian product (`8 * 9 + 8 = 80`)
among them, are stored past the end of the array.  Row 63, the last one inside, is domain
variant 7, `"."` and extension variant 0. -/
theorem permuted_rows_past_the_array :
    num_url_stores true (lit "a") (lit "c") = 81 ∧
    num_url_combinations true (lit "a") (lit "c") = 64 ∧
    num_url_combinations true (lit "a") (lit "c") ≤ 8 * (8 * strlen (lit "c") + 1) + 8 ∧
    (url_permutations true (lit "a") (lit "c")).getD 63 [] = lit "`.c" ++ [0] := by
  decide

/-- C8, at the input where the code departs from it.  With the extension fixed, `"ab"`
and `"co"` and a predicate that accepts every string, the combine loop stores 17
candidates and the print loop visits 16 rows, so 16 lines are printed where the filtered
sequence of generated candidates has 17. -/
theorem print_loop_stops_early :
    (url_permutations false (lit "ab") (lit "co")).length = 17 ∧
    num_url_combinations false (lit "ab") (lit "co") = 16 ∧
    (((url_permutations false (lit "ab") (lit "co")).map c_str).filter
      (fun _ => true)).length = 17 ∧
    (printed (fun _ => true) false (lit "ab") (lit "co")).length = 16 := by
  decide

/-- C9. First candidates with the extension fixed: for a non-empty ASCII domain label
`c :: t`, with bytes in `1..127`, and an extension `e`, candidate 0 is the label,
`"."` and `e`, and candidate 1 is the same with bit 1 of the first character (the bit of
weight 64) complemented; each is followed by the terminator. -/
theorem first_candidates (c : Int) (t e : List Int)
    (hd : ∀ x ∈ c :: t, 1 ≤ x ∧ x ≤ 127) (he : ∀ x ∈ e, x ≠ 0) :
    (url_permutations false (c :: t) e).getD 0 [] = (c :: t) ++ [46] ++ e ++ [0] ∧
    (url_permutations false (c :: t) e).getD 1 []
      = (((c.toNat ^^^ 64 : Nat) : Int) :: t) ++ [46] ++ e ++ [0] := by
  have hL : strlen (c :: t) = t.length + 1 :=
    strlen_of_no_zero _ (label_no_zero _ (ascii_label _ hd))
  have h0 := label_permutations_row (c :: t) hd 0 (Nat.zero_le _)
  have h1 := label_permutations_row (c :: t) hd 1 (by simp; omega)
  have hn : ¬ (1 ≤ 0 ∧ 0 < 8 * (c :: t).length) := by omega
  have hp : 1 ≤ 1 ∧ 1 < 8 * (c :: t).length := by simp; omega
  rw [if_neg hn] at h0
  rw [if_pos hp] at h1
  have hc : complement_bit (c :: t) 1 = ((c.toNat ^^^ 64 : Nat) : Int) :: t := rfl
  rw [hc] at h1
  rw [url_permutations_false]
  constructor
  · rw [getD_map_range _ _ _ (by omega), url_row_eq, h0, hL, c_str_of_no_zero e he]
    simp
  · rw [getD_map_range _ _ _ (by omega), url_row_eq, h1, hL, c_str_of_no_zero e he]
    simp

/-- Witness of `first_candidates`: domain `"ab"` and extension `"co"` give `"ab.co"` as
candidate 0 and `"!b.co"` as candidate 1. -/
theorem first_candidates_witness :
    (∀ x ∈ lit "ab", 1 ≤ x ∧ x ≤ 127) ∧ (∀ x ∈ lit "co", x ≠ 0) ∧
    (url_permutations false (lit "ab") (lit "co")).getD 0 [] = lit "ab.co" ++ [0] ∧
    (url_permutations false (lit "ab") (lit "co")).getD 1 [] = lit "!b.co" ++ [0] :=
  ⟨by decide, by decide, first_candidates 97 [98] (lit "co") (by decide) (by decide)⟩

/-- C10, at the input where the code departs from it: for the label `"a"` the string
decoded from variant 8 is `"a"` again, and its bit sequence is at Hamming distance 0 from
the original bits; variant 7, by contrast, is at distance 1. -/
theorem last_variant_distance_zero :
    memcpy ((label_permutations (lit "a")).getD 8 []) 0 1 = lit "a" ∧
    hamming (encode (memcpy ((label_permutations (lit "a")).getD 8 []) 0 1))
      (binary_str (lit "a")) = 0 ∧
    hamming (encode (memcpy ((label_permutations (lit "a")).getD 7 []) 0 1))
      (binary_str (lit "a")) = 1 := by
  decide

/-! ## Distance between the input and the printed lines -/

theorem hamming_self (l : List Int) : hamming l l = 0 := by
  induction l with
  | nil => rfl
  | cons a t ih => simp [hamming, ih]

theorem hamming_append (a : List Int) : ∀ (b c d : List Int), a.length = b.length →
    hamming (a ++ c) (b ++ d) = hamming a b + hamming c d := by
  induction a with
  | nil =>
    intro b c d h
    cases b with
    | nil => simp [hamming]
    | cons y ys => simp at h
  | cons x xs ih =>
    intro b c d h
    cases b with
    | nil => simp at h
    | cons y ys =>
      simp only [List.length_cons, Nat.add_right_cancel_iff] at h
      show (if x = y then 0 else 1) + hamming (xs ++ c) (ys ++ d)
        = ((if x = y then 0 else 1) + hamming xs ys) + hamming c d
      rw [ih ys c d h]
      omega

theorem hamming_set (l : List Int) : ∀ (k : Nat) (v : Int), k < l.length →
    v ≠ l.getD k 0 → hamming l (l.set k v) = 1 := by
  induction l with
  | nil => intro k v h; simp at h
  | cons x xs ih =>
    intro k v hk hv
    cases k with
    | zero =>
      have hne : ¬ x = v := fun h => hv (by simp [h])
      simp [hamming, hne, hamming_self]
    | succ k =>
      have hk2 : k < xs.length := by simpa using hk
      have hv2 : v ≠ xs.getD k 0 := by simpa using hv
      simp [hamming, ih k v hk2 hv2]

theorem flip_char_ne (x : Int) : flip_char x ≠ x := by
  unfold flip_char
  split <;> omega

theorem encode_eq (s : List Int) (hs : ∀ c ∈ s, 0 ≤ c ∧ c ≤ 127) :
    encode s = s.flatMap bits8 :=
  get_binary_string_zeros s hs

/-- Complementing one bit of the domain label moves the URL by exactly one bit. -/
theorem bit_distance_complement (dom ext : List Int) (p : Nat) (hp : p < 8 * dom.length)
    (hd : ∀ c ∈ dom, 0 ≤ c ∧ c ≤ 255) :
    bit_distance (dom ++ [46] ++ ext) (complement_bit dom p ++ [46] ++ ext) = 1 := by
  unfold bit_distance
  simp only [List.flatMap_append, List.append_assoc]
  rw [hamming_append _ _ _ _ (by
    rw [length_flatMap_bits8, length_flatMap_bits8, length_complement_bit])]
  rw [hamming_self, ← flatMap_bits8_flip dom p hp hd]
  rw [hamming_set _ p _ (by rw [length_flatMap_bits8]; exact hp) (flip_char_ne _)]

theorem alnum_flip_fin : ∀ (c : Fin 256) (r : Fin 8),
    is_alnum (c.val : Int) = true → flip_bit (c.val : Int) r.val ≠ 0 := by
  decide!

theorem alnum_range (c : Int) (h : is_alnum c = true) : 1 ≤ c ∧ c ≤ 255 := by
  unfold is_alnum at h
  simp only [Bool.or_eq_true, Bool.and_eq_true, decide_eq_true_eq] at h
  omega

theorem alnum_ascii (dom : List Int) (hd : ∀ c ∈ dom, is_alnum c = true) :
    ∀ c ∈ dom, 1 ≤ c ∧ c ≤ 127 := by
  intro c hc
  have h := hd c hc
  unfold is_alnum at h
  simp only [Bool.or_eq_true, Bool.and_eq_true, decide_eq_true_eq] at h
  omega

theorem alnum_label (dom : List Int) (hd : ∀ c ∈ dom, is_alnum c = true) :
    ∀ c ∈ dom, 1 ≤ c ∧ c ≤ 255 :=
  fun c hc => alnum_range c (hd c hc)

theorem alnum_flip_ne_zero (c : Int) (r : Nat) (h : is_alnum c = true) (hr : r < 8) :
    flip_bit c r ≠ 0 := by
  have hc := alnum_range c h
  have hf := alnum_flip_fin ⟨c.toNat, by omega⟩ ⟨r, hr⟩
  have e : ((c.toNat : Nat) : Int) = c := Int.toNat_of_nonneg (by omega)
  simp only [e] at hf
  exact hf h

theorem complement_bit_no_zero (dom : List Int) (p : Nat)
    (hd : ∀ c ∈ dom, is_alnum c = true) : ∀ c ∈ complement_bit dom p, c ≠ 0 := by
  intro c hc
  unfold complement_bit at hc
  by_cases hq : p / 8 < dom.length
  · rcases List.mem_or_eq_of_mem_set hc with h | h
    · have := alnum_range c (hd c h); omega
    · have hmem : dom.getD (p / 8) 0 ∈ dom := by
        rw [List.getD_eq_getElem?_getD, List.getElem?_eq_getElem hq]
        exact List.getElem_mem _
      rw [h]
      exact alnum_flip_ne_zero _ _ (hd _ hmem) (Nat.mod_lt _ (by decide))
  · rw [List.set_eq_of_length_le (by omega)] at hc
    have := alnum_range c (hd c hc); omega

/-- The line of row `i` with the extension fixed, for a domain label made of
alphanumerics: the label, with bit `i` complemented when `1 ≤ i < 8 * L`, then `"."`
and the extension. -/
theorem line_fixed_extension (dom ext : List Int) (i : Nat)
    (hd : ∀ c ∈ dom, is_alnum c = true) (he : ∀ c ∈ ext, 1 ≤ c ∧ c ≤ 255)
    (hi : i ≤ 8 * dom.length) :
    c_str ((url_permutations false dom ext).getD i [])
      = (if 1 ≤ i ∧ i < 8 * dom.length then complement_bit dom i else dom)
        ++ [46] ++ ext := by
  have hl := alnum_label dom hd
  have hL : strlen dom = dom.length := strlen_of_no_zero _ (label_no_zero _ hl)
  have hv : ∀ c ∈ (if 1 ≤ i ∧ i < 8 * dom.length then complement_bit dom i else dom),
      c ≠ 0 := by
    split
    · exact complement_bit_no_zero dom i hd
    · exact label_no_zero _ hl
  have hvl : (if 1 ≤ i ∧ i < 8 * dom.length then complement_bit dom i else dom).length
      = dom.length := by
    split
    · exact length_complement_bit dom i
    · rfl
  rw [url_permutations_false, getD_map_range _ _ _ (by rw [hL]; omega), url_row_eq,
    label_permutations_row dom (alnum_ascii dom hd) i hi, hL,
    c_str_of_no_zero ext (label_no_zero _ he)]
  rw [List.take_left' hvl]
  have hall : ∀ c ∈ (if 1 ≤ i ∧ i < 8 * dom.length then complement_bit dom i else dom)
      ++ [46] ++ ext, c ≠ 0 := by
    intro c hc
    simp only [List.mem_append, List.mem_singleton] at hc
    rcases hc with (h | h) | h
    · exact hv c h
    · omega
    · exact label_no_zero _ he c h
  have h := c_str_append_zero _ [] hall
  simpa using h

theorem getD_mem_take (rows : List (List Int)) (k n : Nat) (hk : k < n)
    (hl : k < rows.length) : rows.getD k [] ∈ rows.take n := by
  rw [List.mem_iff_getElem?]
  refine ⟨k, ?_⟩
  rw [List.getElem?_take_of_lt hk, List.getD_eq_getElem?_getD, List.getElem?_eq_getElem hl]
  rfl

theorem mem_take_getD (rows : List (List Int)) (row : List Int) (n : Nat)
    (h : row ∈ rows.take n) : ∃ k, k < n ∧ k < rows.length ∧ row = rows.getD k [] := by
  rw [List.mem_iff_getElem] at h
  obtain ⟨k, hk, hrow⟩ := h
  have hk2 : k < n ∧ k < rows.length := by
    rw [List.length_take] at hk; omega
  refine ⟨k, hk2.1, hk2.2, ?_⟩
  rw [← hrow, List.getElem_take, List.getD_eq_getElem?_getD, List.getElem?_eq_getElem hk2.2]
  rfl

theorem length_url_permutations_false (dom ext : List Int) :
    (url_permutations false dom ext).length = strlen dom * 8 + 1 := by
  rw [url_permutations_false]; simp

/-- C4, as amended. With the extension fixed (the default), for a domain label made of
alphanumerics and an extension with codes in `1..255`: every string that the validity
predicate accepts and that is the input URL with one bit of the domain label
complemented, at a position `p` with `1 ≤ p ≤ 8 * L - 1`, is printed. -/
theorem domain_flips_printed (is_valid_url : List Int → Bool) (dom ext : List Int) (p : Nat)
    (hd : ∀ c ∈ dom, is_alnum c = true) (he : ∀ c ∈ ext, 1 ≤ c ∧ c ≤ 255)
    (hp1 : 1 ≤ p) (hp2 : p < 8 * dom.length)
    (hv : is_valid_url (complement_bit dom p ++ [46] ++ ext) = true) :
    complement_bit dom p ++ [46] ++ ext ∈ printed is_valid_url false dom ext := by
  have hL : strlen dom = dom.length :=
    strlen_of_no_zero _ (label_no_zero _ (alnum_label dom hd))
  have hline := line_fixed_extension dom ext p hd he (by omega)
  rw [if_pos ⟨hp1, hp2⟩] at hline
  unfold printed
  rw [List.mem_filter]
  refine ⟨?_, hv⟩
  rw [List.mem_map]
  refine ⟨(url_permutations false dom ext).getD p [], ?_, hline⟩
  apply getD_mem_take
  · simp only [num_url_combinations, Bool.false_eq_true, if_false]; rw [hL]; omega
  · rw [length_url_permutations_false, hL]; omega

/-- Witness of `domain_flips_printed`: for `"ab.co"`, bit 15 of the domain label (the
last bit of `'b'`) gives `"ac.co"`, which is printed. -/
theorem domain_flips_printed_witness :
    (∀ c ∈ lit "ab", is_alnum c = true) ∧ (∀ c ∈ lit "co", 1 ≤ c ∧ c ≤ 255) ∧
    1 ≤ 15 ∧ 15 < 8 * (lit "ab").length ∧
    lit "ac.co" ∈ printed (fun _ => true) false (lit "ab") (lit "co") :=
  ⟨by decide, by decide, by decide, by decide,
    domain_flips_printed (fun _ => true) (lit "ab") (lit "co") 15
      (by decide) (by decide) (by decide) (by decide) rfl⟩

/-- C4 as stated fails: `"ab.cn"` differs from the input URL `"ab.co"` in exactly one
bit (the last bit of the extension), and with the extension fixed it is not printed,
whatever the validity predicate accepts. -/
theorem extension_flip_not_printed :
    (lit "ab.cn").length = (lit "ab.co").length ∧
    bit_distance (lit "ab.co") (lit "ab.cn") = 1 ∧
    ∀ is_valid_url : List Int → Bool,
      lit "ab.cn" ∉ printed is_valid_url false (lit "ab") (lit "co") := by
  refine ⟨by decide, by decide, ?_⟩
  intro v h
  unfold printed at h
  have h2 := (List.mem_filter.1 h).1
  revert h2
  decide

/-- C5, as amended. With the extension fixed (the default), for a domain label made of
alphanumerics and an extension with codes in `1..255`: every printed line other than the
input URL itself has the length of the input URL and differs from it in exactly one
bit. -/
theorem printed_lines_fixed_extension (is_valid_url : List Int → Bool)
    (dom ext line : List Int)
    (hd : ∀ c ∈ dom, is_alnum c = true) (he : ∀ c ∈ ext, 1 ≤ c ∧ c ≤ 255)
    (hl : line ∈ printed is_valid_url false dom ext) :
    line = dom ++ [46] ++ ext ∨
    (line.length = (dom ++ [46] ++ ext).length ∧
      bit_distance (dom ++ [46] ++ ext) line = 1) := by
  have hlab := alnum_label dom hd
  have hL : strlen dom = dom.length := strlen_of_no_zero _ (label_no_zero _ hlab)
  unfold printed at hl
  have h1 := (List.mem_filter.1 hl).1
  rw [List.mem_map] at h1
  obtain ⟨row, hrow, hline⟩ := h1
  obtain ⟨k, hk, hklen, hrk⟩ := mem_take_getD _ _ _ hrow
  simp only [num_url_combinations, Bool.false_eq_true, if_false] at hk
  rw [hL] at hk
  have h := line_fixed_extension dom ext k hd he (by omega)
  rw [← hrk, hline] at h
  by_cases hk1 : 1 ≤ k
  · right
    rw [if_pos ⟨hk1, by omega⟩] at h
    rw [h]
    constructor
    · simp [length_complement_bit]
    · exact bit_distance_complement dom ext k (by omega) (label_range _ hlab)
  · left
    have hn : ¬ (1 ≤ k ∧ k < 8 * dom.length) := by omega
    rw [if_neg hn] at h
    exact h

/-- Witness of `printed_lines_fixed_extension`: the printed line `"ac.co"` of the input
`"ab.co"`. -/
theorem printed_lines_fixed_extension_witness :
    (∀ c ∈ lit "ab", is_alnum c = true) ∧ (∀ c ∈ lit "co", 1 ≤ c ∧ c ≤ 255) ∧
    lit "ac.co" ∈ printed (fun _ => true) false (lit "ab") (lit "co") ∧
    (lit "ac.co" = lit "ab" ++ [46] ++ lit "co" ∨
      ((lit "ac.co").length = (lit "ab" ++ [46] ++ lit "co").length ∧
        bit_distance (lit "ab" ++ [46] ++ lit "co") (lit "ac.co") = 1)) :=
  ⟨by decide, by decide, by decide,
    printed_lines_fixed_extension (fun _ => true) (lit "ab") (lit "co") (lit "ac.co")
      (by decide) (by decide) (by decide)⟩

/-- C5 as stated fails: with the extension permuted, the input `"ab.co"` has the line
`"af.cn"` printed as soon as the validity predicate accepts it, and that line differs
from the input URL in two bits. -/
theorem permuted_extension_two_bits :
    (lit "af.cn").length = (lit "ab.co").length ∧
    bit_distance (lit "ab.co") (lit "af.cn") = 2 ∧
    ∀ is_valid_url : List Int → Bool, is_valid_url (lit "af.cn") = true →
      lit "af.cn" ∈ printed is_valid_url true (lit "ab") (lit "co") := by
  refine ⟨by decide, by decide, ?_⟩
  intro v hv
  unfold printed
  rw [List.mem_filter]
  refine ⟨?_, hv⟩
  decide!

/-! ## Cell by cell: what `to_binary` writes -/

theorem length_to_binary_loop (fuel : Nat) : ∀ (ch p : Int) (arr : List Int),
    (to_binary_loop fuel ch p arr).length = arr.length := by
  induction fuel with
  | zero => intros; rfl
  | succ n ih =>
    intro ch p arr
    simp only [to_binary_loop]
    split
    · rw [ih, length_store]
    · rfl

theorem getD_store (arr : List Int) (p v : Int) (j : Nat) (hj : j < arr.length) :
    (store arr p v).getD j 0 = if (j : Int) = p then v else arr.getD j 0 := by
  unfold store
  by_cases hp : 0 ≤ p
  · rw [if_pos hp]
    by_cases hjp : (j : Int) = p
    · have e : p.toNat = j := by omega
      rw [if_pos hjp, e]
      simp [List.getD_eq_getElem?_getD, List.getElem?_set, hj]
    · have e : p.toNat ≠ j := by omega
      rw [if_neg hjp]
      simp only [List.getD_eq_getElem?_getD]
      rw [List.getElem?_set_ne e]
  · have hjp : ¬ (j : Int) = p := by omega
    rw [if_neg hp, if_neg hjp]

/-- Cell `j` after the loop of `to_binary`: the digit of weight `2 ^ (position - j)` of
`ch` when that digit is at or below the leading one of `ch`, the old cell otherwise. -/
theorem to_binary_loop_getD (fuel : Nat) : ∀ (ch p : Int) (arr : List Int) (j : Nat),
    ch.toNat ≤ fuel → j < arr.length →
    (to_binary_loop fuel ch p arr).getD j 0
      = if (j : Int) ≤ p ∧ 0 < ch.toNat / 2 ^ (p - j).toNat then
          ((ch.toNat / 2 ^ (p - j).toNat % 2 : Nat) : Int) + 48
        else arr.getD j 0 := by
  induction fuel with
  | zero =>
    intro ch p arr j hf hj
    have h0 : ch.toNat = 0 := by omega
    simp [to_binary_loop, h0]
  | succ n ih =>
    intro ch p arr j hf hj
    by_cases hc : ch > 0
    · simp only [to_binary_loop, hc, if_true]
      rw [ih (ch / 2) (p - 1) _ j (by omega) (by rw [length_store]; exact hj),
        getD_store arr p _ j hj]
      have hhalf : (ch / 2).toNat = ch.toNat / 2 := by omega
      rw [hhalf]
      by_cases hjp : (j : Int) ≤ p - 1
      · have hexp : (p - j).toNat = (p - 1 - j).toNat + 1 := by omega
        have hdiv : ch.toNat / 2 ^ (p - j).toNat = ch.toNat / 2 / 2 ^ (p - 1 - j).toNat := by
          rw [hexp, Nat.pow_succ, Nat.mul_comm, Nat.div_div_eq_div_mul]
        have hne : ¬ (j : Int) = p := by omega
        have hle : (j : Int) ≤ p := by omega
        rw [hdiv, if_neg hne]
        simp only [hjp, hle, true_and]
      · have hn : ¬ ((j : Int) ≤ p - 1 ∧ 0 < ch.toNat / 2 / 2 ^ (p - 1 - j).toNat) :=
          fun h => hjp h.1
        rw [if_neg hn]
        by_cases hjeq : (j : Int) = p
        · have hexp : (p - j).toNat = 0 := by omega
          have hpos : 0 < ch.toNat := by omega
          have hle : (j : Int) ≤ p := by omega
          rw [if_pos hjeq, hexp]
          simp only [Nat.pow_zero, Nat.div_one, hle, hpos, and_self, if_true]
          omega
        · have hgt : ¬ (j : Int) ≤ p := by omega
          have hn2 : ¬ ((j : Int) ≤ p ∧ 0 < ch.toNat / 2 ^ (p - j).toNat) :=
            fun h => hgt h.1
          rw [if_neg hjeq, if_neg hn2]
    · have h0 : ch.toNat = 0 := by omega
      rw [to_binary_loop_nonpos _ _ _ _ (by omega)]
      simp [h0]

theorem significant_bits_loop_spec (fuel : Nat) : ∀ (n m : Nat), n ≤ fuel →
    (0 < n / 2 ^ m ↔ m < significant_bits_loop fuel n) := by
  induction fuel with
  | zero =>
    intro n m h
    have h0 : n = 0 := by omega
    simp [significant_bits_loop, h0]
  | succ f ih =>
    intro n m h
    by_cases hn : n > 0
    · simp only [significant_bits_loop, hn, if_true]
      cases m with
      | zero => simp; omega
      | succ m =>
        have hdiv : n / 2 ^ (m + 1) = n / 2 / 2 ^ m := by
          rw [Nat.pow_succ, Nat.mul_comm, Nat.div_div_eq_div_mul]
        rw [hdiv, ih (n / 2) m (by omega)]
        omega
    · have h0 : n = 0 := by omega
      simp [significant_bits_loop, h0]

/-- The digit of weight `2 ^ m` is at or below the leading one of `ch` exactly when
`m < significant_bits ch`. -/
theorem significant_bits_spec (ch : Int) (m : Nat) :
    0 < ch.toNat / 2 ^ m ↔ m < significant_bits ch :=
  significant_bits_loop_spec ch.toNat ch.toNat m (Nat.le_refl _)

theorem significant_bits_bounds (ch : Int) :
    ch.toNat < 2 ^ significant_bits ch ∧
    (0 < ch → 1 ≤ significant_bits ch ∧ 2 ^ (significant_bits ch - 1) ≤ ch.toNat) := by
  constructor
  · by_contra h
    have hle : 2 ^ significant_bits ch ≤ ch.toNat := by omega
    have hpos := Nat.div_pos hle (Nat.two_pow_pos _)
    have := (significant_bits_spec ch (significant_bits ch)).1 hpos
    omega
  · intro hc
    have h1 : 1 ≤ significant_bits ch := by
      have := (significant_bits_spec ch 0).1 (by simp; omega)
      omega
    refine ⟨h1, ?_⟩
    by_contra h
    have hlt : ch.toNat < 2 ^ (significant_bits ch - 1) := by omega
    have hz : ch.toNat / 2 ^ (significant_bits ch - 1) = 0 := Nat.div_eq_of_lt hlt
    have := (significant_bits_spec ch (significant_bits ch - 1)).2 (by omega)
    omega

/-- Cell `j` after `to_binary`: written exactly when
`position - significant_bits ch < j ≤ position`. -/
theorem to_binary_getD (ch p : Int) (arr : List Int) (j : Nat) (hj : j < arr.length) :
    (to_binary ch p arr).getD j 0
      = if p - significant_bits ch < j ∧ (j : Int) ≤ p then
          ((ch.toNat / 2 ^ (p - j).toNat % 2 : Nat) : Int) + 48
        else arr.getD j 0 := by
  unfold to_binary
  rw [to_binary_loop_getD _ ch p arr j (Nat.le_refl _) hj]
  have hiff : ((j : Int) ≤ p ∧ 0 < ch.toNat / 2 ^ (p - j).toNat)
      ↔ (p - significant_bits ch < j ∧ (j : Int) ≤ p) := by
    rw [significant_bits_spec]
    constructor
    · intro h; omega
    · intro h; omega
  simp only [hiff]

theorem length_to_binary (ch p : Int) (arr : List Int) :
    (to_binary ch p arr).length = arr.length :=
  length_to_binary_loop _ ch p arr

theorem to_binary_unchanged (ch p : Int) (arr : List Int) (j : Nat)
    (h : (j : Int) ≤ p - significant_bits ch ∨ p < j) :
    (to_binary ch p arr).getD j 0 = arr.getD j 0 := by
  by_cases hj : j < arr.length
  · rw [to_binary_getD ch p arr j hj]
    have hn : ¬ (p - significant_bits ch < j ∧ (j : Int) ≤ p) := by omega
    rw [if_neg hn]
  · have h1 : (to_binary ch p arr)[j]? = none :=
      List.getElem?_eq_none (by rw [length_to_binary]; omega)
    have h2 : arr[j]? = none := List.getElem?_eq_none (by omega)
    simp [List.getD_eq_getElem?_getD, h1, h2]

theorem digit_cast (ch : Int) (h0 : 0 ≤ ch) (m : Nat) :
    ((ch.toNat / 2 ^ m % 2 : Nat) : Int) = ch / 2 ^ m % 2 := by
  have e : ((ch.toNat : Nat) : Int) = ch := Int.toNat_of_nonneg h0
  push_cast
  rw [e]

theorem to_binary_written (ch p : Int) (arr : List Int) (j : Nat) (h0 : 0 ≤ ch)
    (h1 : p - significant_bits ch < j) (h2 : (j : Int) ≤ p) (hj : j < arr.length) :
    (to_binary ch p arr).getD j 0 = ch / 2 ^ (p - j).toNat % 2 + 48 := by
  rw [to_binary_getD ch p arr j hj, if_pos ⟨h1, h2⟩, digit_cast ch h0]

theorem bits8_getD (ch : Int) (h0 : 0 ≤ ch) (j : Nat) (hj : j < 8) :
    (bits8 ch).getD j 0 = ((ch.toNat / 2 ^ (7 - j) % 2 : Nat) : Int) + 48 := by
  interval_cases j <;> simp [bits8] <;> omega

theorem ext_getD8 (a b : List Int) (ha : a.length = 8) (hb : b.length = 8)
    (h : ∀ j : Nat, j < 8 → a.getD j 0 = b.getD j 0) : a = b := by
  apply List.ext_getElem (by rw [ha, hb])
  intro j h1 h2
  have := h j (by omega)
  simpa [List.getD_eq_getElem?_getD, List.getElem?_eq_getElem h1,
    List.getElem?_eq_getElem h2] using this

/-- One group of eight cells: `to_binary` leaves the eight digits of `ch` exactly when
the cells above the leading one of `ch` already hold `'0'`. -/
theorem to_binary_group_iff (ch : Int) (h0 : 0 ≤ ch) (g : List Int) (hg : g.length = 8) :
    to_binary ch 7 g = bits8 ch
      ↔ ∀ j : Nat, j + significant_bits ch < 8 → g.getD j 0 = 48 := by
  have hcell : ∀ j : Nat, j < 8 → (to_binary ch 7 g).getD j 0
      = if 7 - j < significant_bits ch then (bits8 ch).getD j 0 else g.getD j 0 := by
    intro j hj
    rw [to_binary_getD ch 7 g j (by omega), bits8_getD ch h0 j hj]
    have e : ((7 : Int) - (j : Int)).toNat = 7 - j := by omega
    have hiff : ((7 : Int) - significant_bits ch < j ∧ (j : Int) ≤ 7)
        ↔ 7 - j < significant_bits ch := by omega
    simp only [hiff, e]
  have hzero : ∀ j : Nat, j < 8 → ¬ 7 - j < significant_bits ch →
      (bits8 ch).getD j 0 = 48 := by
    intro j hj hn
    rw [bits8_getD ch h0 j hj]
    have hz : ¬ 0 < ch.toNat / 2 ^ (7 - j) := fun h =>
      hn ((significant_bits_spec ch (7 - j)).1 h)
    have hz2 : ch.toNat / 2 ^ (7 - j) = 0 := Nat.eq_zero_of_not_pos hz
    rw [hz2]; rfl
  constructor
  · intro h j hj
    have hj8 : j < 8 := by omega
    have hn : ¬ 7 - j < significant_bits ch := by omega
    have hc := hcell j hj8
    rw [if_neg hn, h, hzero j hj8 hn] at hc
    exact hc.symm
  · intro h
    apply ext_getD8 _ _ (by rw [length_to_binary, hg]) (length_bits8 ch)
    intro j hj
    rw [hcell j hj]
    by_cases hc : 7 - j < significant_bits ch
    · rw [if_pos hc]
    · rw [if_neg hc, hzero j hj hc]
      exact h j (by omega)

/-- C20. Frame of `to_binary`: for a code `ch` in `0..255` with `k` significant bits
(`k = 0` for `ch = 0`), `to_binary(ch, position, arr)` keeps the length of the buffer,
leaves every cell outside `position - k + 1 .. position` as it was, the cells above the
leading one of `ch` in the same group included, and writes the digit of weight
`2 ^ (position - j)` in each cell `j` of that range; hence over one group of eight cells
`to_binary`, and `get_binary_string` for a byte `ch ≤ 127` (which reaches `to_binary`
unchanged), give the eight digits of `ch` exactly when the cells they do not write
already hold `'0'`. -/
theorem to_binary_frame (ch : Int) (h0 : 0 ≤ ch) (h1 : ch ≤ 255) (position : Int)
    (arr : List Int) :
    (ch < 2 ^ significant_bits ch ∧ (ch = 0 → significant_bits ch = 0) ∧
      (0 < ch → 2 ^ (significant_bits ch - 1) ≤ ch) ∧ significant_bits ch ≤ 8) ∧
    (to_binary ch position arr).length = arr.length ∧
    (∀ j : Nat, (j : Int) ≤ position - significant_bits ch ∨ position < j →
      (to_binary ch position arr).getD j 0 = arr.getD j 0) ∧
    (∀ j : Nat, position - significant_bits ch < j → (j : Int) ≤ position →
      j < arr.length →
      (to_binary ch position arr).getD j 0 = ch / 2 ^ (position - j).toNat % 2 + 48) ∧
    (∀ g : List Int, g.length = 8 →
      (to_binary ch 7 g = bits8 ch
        ↔ ∀ j : Nat, j + significant_bits ch < 8 → g.getD j 0 = 48)) ∧
    (ch ≤ 127 → ∀ g : List Int, g.length = 8 →
      (get_binary_string 1 [ch] g = bits8 ch
        ↔ ∀ j : Nat, j + significant_bits ch < 8 → g.getD j 0 = 48)) := by
  have hb := significant_bits_bounds ch
  have e : ((ch.toNat : Nat) : Int) = ch := Int.toNat_of_nonneg h0
  have hgbs : ch ≤ 127 → ∀ g : List Int, get_binary_string 1 [ch] g = to_binary ch 7 g := by
    intro h127 g
    show to_binary (char_to_int ch) 7 g = to_binary ch 7 g
    rw [char_to_int_ascii ch h0 h127]
  refine ⟨⟨?_, ?_, ?_, ?_⟩, length_to_binary ch position arr,
    fun j h => to_binary_unchanged ch position arr j h,
    fun j h2 h3 hj => to_binary_written ch position arr j h0 h2 h3 hj,
    fun g hg => to_binary_group_iff ch h0 g hg,
    fun h127 g hg => by rw [hgbs h127 g]; exact to_binary_group_iff ch h0 g hg⟩
  · have h := hb.1
    have h2 : ((ch.toNat : Nat) : Int) < ((2 ^ significant_bits ch : Nat) : Int) :=
      Int.ofNat_lt.2 h
    rw [e] at h2
    simpa using h2
  · intro hz
    subst hz
    rfl
  · intro hpos
    have h := (hb.2 hpos).2
    have h2 : ((2 ^ (significant_bits ch - 1) : Nat) : Int) ≤ ((ch.toNat : Nat) : Int) :=
      Int.ofNat_le.2 h
    rw [e] at h2
    simpa using h2
  · by_contra hk
    have h8 : 8 < significant_bits ch := by omega
    have hpos := (significant_bits_spec ch 8).2 h8
    have h256 : 0 < ch.toNat / 256 := by simpa using hpos
    omega

/-- Witness of `to_binary_frame`: the code 5 (three significant bits) written at
position 7 of eight cells that hold `'1'` changes cells 5, 6 and 7 only. -/
theorem to_binary_frame_witness :
    (0 : Int) ≤ 5 ∧ (5 : Int) ≤ 255 ∧ significant_bits 5 = 3 ∧
    to_binary 5 7 (List.replicate 8 49) = [49, 49, 49, 49, 49, 49, 48, 49] ∧
    (∀ j : Nat, (j : Int) ≤ 7 - significant_bits 5 ∨ (7 : Int) < j →
      (to_binary 5 7 (List.replicate 8 49)).getD j 0 = (List.replicate 8 49).getD j 0) :=
  ⟨by decide, by decide, by decide, by decide,
    (to_binary_frame 5 (by decide) (by decide) 7 (List.replicate 8 49)).2.2.1⟩

/-! ## Inputs out of range: no error path -/

/-- C15 as stated fails: `to_binary` has no error to report.  The negative code -56
leaves a group of `'0'` cells untouched, and the code 256 written at position 15, after
the eight digits of `'b'`, takes nine cells, the first of them over the last digit of
`'b'`: the buffer then holds the digits of `'c'` and of the code 0. -/
theorem encoding_reports_no_error :
    to_binary (-56) 7 (List.replicate 8 48) = List.replicate 8 48 ∧
    to_binary 256 15 (bits8 98 ++ List.replicate 8 48) = bits8 99 ++ bits8 0 := by
  decide

/-- C15, as amended. `to_binary` checks no range and reports no error: a negative code
writes nothing, and a code of 256 or more has at least nine significant bits, all of
which are written, from `position` downwards, past the group of eight cells. -/
theorem to_binary_out_of_range (ch position : Int) (arr : List Int) :
    (ch < 0 → to_binary ch position arr = arr) ∧
    (256 ≤ ch → 9 ≤ significant_bits ch ∧
      ∀ j : Nat, position - significant_bits ch < j → (j : Int) ≤ position →
        j < arr.length →
        (to_binary ch position arr).getD j 0
          = ch / 2 ^ (position - j).toNat % 2 + 48) := by
  constructor
  · intro h
    exact to_binary_loop_nonpos _ ch position arr (by omega)
  · intro h
    constructor
    · have hpos : 0 < ch.toNat / 2 ^ 8 := by
        have : 256 ≤ ch.toNat := by omega
        have h2 : (2 : Nat) ^ 8 = 256 := by decide
        rw [h2]; omega
      have := (significant_bits_spec ch 8).1 hpos
      omega
    · intro j h1 h2 hj
      exact to_binary_written ch position arr j (by omega) h1 h2 hj

theorem length_get_string_loop (fuel : Nat) : ∀ (i byte n : Nat) (bin out : List Int),
    (get_string_loop fuel i byte n bin out).length = out.length := by
  induction fuel with
  | zero => intros; rfl
  | succ f ih =>
    intro i byte n bin out
    simp only [get_string_loop]
    split
    · rw [ih]; simp [to_character]
    · rfl

theorem length_get_string (n : Nat) (bin out : List Int) :
    (get_string n bin out).length = out.length :=
  length_get_string_loop _ _ _ _ _ _

/-- Cell `k` after the loop of `get_string` started at group `i`: the character parsed
from the eight cells of group `k` for every group `k ≥ i` that starts below
`binary_str_length`, the old cell otherwise. -/
theorem get_string_loop_getD (fuel : Nat) : ∀ (i n : Nat) (bin out : List Int) (k : Nat),
    n ≤ 8 * i + 8 * fuel →
    (get_string_loop fuel i (8 * i) n bin out).getD k 0
      = if i ≤ k ∧ 8 * k < n ∧ k < out.length then
          strtol2 (c_str (memcpy bin (8 * k) 8 ++ [0])) % 256
        else out.getD k 0 := by
  induction fuel with
  | zero =>
    intro i n bin out k h
    have hn : ¬ (i ≤ k ∧ 8 * k < n ∧ k < out.length) := by omega
    rw [if_neg hn]
    rfl
  | succ f ih =>
    intro i n bin out k h
    by_cases hb : 8 * i < n
    · have e8 : 8 * i + 8 = 8 * (i + 1) := by omega
      simp only [get_string_loop, hb, if_true]
      rw [e8, ih (i + 1) n bin _ k (by omega)]
      simp only [to_character, List.length_set]
      by_cases hk : k = i
      · subst hk
        have hn : ¬ (k + 1 ≤ k ∧ 8 * k < n ∧ k < out.length) := by omega
        rw [if_neg hn]
        by_cases hlen : k < out.length
        · have hp : k ≤ k ∧ 8 * k < n ∧ k < out.length := ⟨Nat.le_refl _, hb, hlen⟩
          rw [if_pos hp]
          simp [List.getD_eq_getElem?_getD, List.getElem?_set, hlen]
        · have hp : ¬ (k ≤ k ∧ 8 * k < n ∧ k < out.length) := fun h => hlen h.2.2
          rw [if_neg hp, List.set_eq_of_length_le (by omega)]
      · have hset : (out.set i (strtol2 (c_str (memcpy bin (8 * i) 8 ++ [0])) % 256)).getD k 0
            = out.getD k 0 := by
          simp only [List.getD_eq_getElem?_getD]
          rw [List.getElem?_set_ne (by omega)]
        rw [hset]
        have hiff : (i + 1 ≤ k ∧ 8 * k < n ∧ k < out.length)
            ↔ (i ≤ k ∧ 8 * k < n ∧ k < out.length) := by omega
        simp only [hiff]
    · have hn : ¬ (i ≤ k ∧ 8 * k < n ∧ k < out.length) := by omega
      simp only [get_string_loop, hb, if_false]
      rw [if_neg hn]

theorem get_string_getD (n : Nat) (bin out : List Int) (k : Nat) :
    (get_string n bin out).getD k 0
      = if 8 * k < n ∧ k < out.length then
          strtol2 (c_str (memcpy bin (8 * k) 8 ++ [0])) % 256
        else out.getD k 0 := by
  have h := get_string_loop_getD n 0 n bin out k (by omega)
  simp only [Nat.mul_zero, Nat.zero_le, true_and] at h
  exact h

/-- C14 as stated fails: `get_string` has no error to report.  Asked for 12 bits of the
sixteen digits of `"ab"`, a count that is no multiple of 8, it writes the two characters
of `"ab"`. -/
theorem decoding_reports_no_error :
    get_string 12 (encode (lit "ab")) [0, 0, 0] = lit "ab" ++ [0] := by
  decide

/-- C14, as amended. `get_string` checks no length and reports no error: for every bit
count `n`, a multiple of 8 or not, it keeps the length of `str`, writes in each cell `k`
with `8 * k < n` the character that `strtol` reads in the eight cells from `8 * k` on,
and leaves the other cells as they were. -/
theorem get_string_any_length (n : Nat) (binary_str str : List Int) :
    (get_string n binary_str str).length = str.length ∧
    (∀ k : Nat, 8 * k < n → k < str.length →
      (get_string n binary_str str).getD k 0
        = strtol2 (c_str (memcpy binary_str (8 * k) 8 ++ [0])) % 256) ∧
    (∀ k : Nat, n ≤ 8 * k → (get_string n binary_str str).getD k 0 = str.getD k 0) := by
  refine ⟨length_get_string n binary_str str, ?_, ?_⟩
  · intro k h1 h2
    rw [get_string_getD, if_pos ⟨h1, h2⟩]
  · intro k h1
    have hn : ¬ (8 * k < n ∧ k < str.length) := by omega
    rw [get_string_getD, if_neg hn]

/-! ## Layout of the encoding and of the decoding -/

theorem strtol_digits_binary (g : List Int) : ∀ (acc : Int),
    (∀ b ∈ g, b = 48 ∨ b = 49) →
    strtol_digits g acc = g.foldl (fun a b => 2 * a + (b - 48)) acc := by
  induction g with
  | nil => intro acc _; rfl
  | cons b t ih =>
    intro acc h
    have hb := h b (List.mem_cons_self _ _)
    simp only [strtol_digits, hb, if_true, List.foldl_cons]
    exact ih _ (fun x hx => h x (List.mem_cons_of_mem _ hx))

theorem strtol2_binary (g : List Int) (h : ∀ b ∈ g, b = 48 ∨ b = 49) :
    strtol2 g = binary_value g := by
  unfold binary_value
  rw [← strtol_digits_binary g 0 h]
  cases g with
  | nil => rfl
  | cons b t =>
    rcases h b (List.mem_cons_self _ _) with rfl | rfl <;> rfl

theorem foldl_binary_bounds (g : List Int) : ∀ (acc : Int), 0 ≤ acc →
    (∀ b ∈ g, b = 48 ∨ b = 49) →
    0 ≤ g.foldl (fun a b => 2 * a + (b - 48)) acc ∧
    g.foldl (fun a b => 2 * a + (b - 48)) acc < (acc + 1) * 2 ^ g.length := by
  induction g with
  | nil => intro acc h0 _; simp; omega
  | cons b t ih =>
    intro acc h0 h
    have hb := h b (List.mem_cons_self _ _)
    have hacc : 0 ≤ 2 * acc + (b - 48) := by omega
    have hi := ih (2 * acc + (b - 48)) hacc (fun x hx => h x (List.mem_cons_of_mem _ hx))
    refine ⟨hi.1, ?_⟩
    have hpow : (0 : Int) < 2 ^ t.length := by positivity
    have hle : (2 * acc + (b - 48) + 1) * 2 ^ t.length ≤ (2 * acc + 2) * 2 ^ t.length :=
      Int.mul_le_mul_of_nonneg_right (by omega) (Int.le_of_lt hpow)
    have he : (acc + 1) * 2 ^ (b :: t).length = (2 * acc + 2) * 2 ^ t.length := by
      rw [List.length_cons, pow_succ]; ring
    rw [he]
    exact lt_of_lt_of_le hi.2 hle

/-- The character `to_character` stores for a group of eight binary digits is the
binary number they form. -/
theorem strtol2_group (g : List Int) (hg : g.length = 8) (h : ∀ b ∈ g, b = 48 ∨ b = 49) :
    strtol2 (c_str (g ++ [0])) % 256 = binary_value g := by
  have hnz : ∀ b ∈ g, b ≠ 0 := by
    intro b hb
    rcases h b hb with h1 | h1 <;> omega
  rw [c_str_append_zero g [] hnz, strtol2_binary g h]
  have hb := foldl_binary_bounds g 0 (Int.le_refl _) h
  rw [hg] at hb
  apply Int.emod_eq_of_lt hb.1
  have := hb.2
  norm_num at this
  exact this

theorem memcpy_group (bin : List Int) (L k : Nat) (hlen : bin.length = 8 * L) (hk : k < L) :
    (memcpy bin (8 * k) 8).length = 8 ∧ ∀ b ∈ memcpy bin (8 * k) 8, b ∈ bin := by
  unfold memcpy
  constructor
  · rw [List.length_take, List.length_drop]; omega
  · intro b hb
    exact List.mem_of_mem_drop (List.mem_of_mem_take hb)

/-- C12. Decoding: for a sequence of `8 * L` characters, each `'0'` or `'1'`,
`get_string` writes exactly `L` characters: cell `k < L` receives the unsigned binary
number formed by the eight cells `[8k, 8k+8)`, most significant first, and the cells
from `L` on are left as they were. -/
theorem decoding_layout (binary_str str : List Int) (L : Nat)
    (hb : ∀ b ∈ binary_str, b = 48 ∨ b = 49) (hlen : binary_str.length = 8 * L)
    (hstr : L ≤ str.length) :
    (get_string (8 * L) binary_str str).length = str.length ∧
    (∀ k : Nat, k < L →
      (get_string (8 * L) binary_str str).getD k 0
        = binary_value (memcpy binary_str (8 * k) 8) ∧
      0 ≤ binary_value (memcpy binary_str (8 * k) 8) ∧
      binary_value (memcpy binary_str (8 * k) 8) ≤ 255) ∧
    (∀ k : Nat, L ≤ k → (get_string (8 * L) binary_str str).getD k 0 = str.getD k 0) := by
  refine ⟨length_get_string _ _ _, ?_, ?_⟩
  · intro k hk
    have hg := memcpy_group binary_str L k hlen hk
    have hbin : ∀ b ∈ memcpy binary_str (8 * k) 8, b = 48 ∨ b = 49 :=
      fun b hb2 => hb b (hg.2 b hb2)
    have hval := strtol2_group _ hg.1 hbin
    rw [get_string_getD, if_pos ⟨by omega, by omega⟩, hval]
    have hbd := foldl_binary_bounds _ 0 (Int.le_refl _) hbin
    rw [hg.1] at hbd
    have h2 := hbd.2
    norm_num at h2
    refine ⟨rfl, hbd.1, ?_⟩
    unfold binary_value
    omega
  · intro k hk
    have hn : ¬ (8 * k < 8 * L ∧ k < str.length) := by omega
    rw [get_string_getD, if_neg hn]

/-- Witness of `decoding_layout`: the sixteen digits `01100001 01100010` decode to the
codes 97 and 98. -/
theorem decoding_layout_witness :
    (∀ b ∈ bits8 97 ++ bits8 98, b = 48 ∨ b = 49) ∧ (bits8 97 ++ bits8 98).length = 8 * 2 ∧
    2 ≤ [7, 7, 7].length ∧
    get_string (8 * 2) (bits8 97 ++ bits8 98) [7, 7, 7] = [97, 98, 7] ∧
    (get_string (8 * 2) (bits8 97 ++ bits8 98) [7, 7, 7]).length = [7, 7, 7].length :=
  ⟨by decide, by decide, by decide, by decide,
    (decoding_layout (bits8 97 ++ bits8 98) [7, 7, 7] 2 (by decide) (by decide)
      (by decide)).1⟩

theorem memcpy_flatMap_bits8 (s : List Int) : ∀ (p : Nat), p < s.length →
    memcpy (s.flatMap bits8) (8 * p) 8 = bits8 (s.getD p 0) := by
  induction s with
  | nil => intro p h; simp at h
  | cons c t ih =>
    intro p hp
    cases p with
    | zero =>
      unfold memcpy
      rw [List.flatMap_cons, Nat.mul_zero, List.drop_zero,
        List.take_left' (length_bits8 c)]
      rfl
    | succ p =>
      have hp2 : p < t.length := by simpa using hp
      have h := ih p hp2
      unfold memcpy at h ⊢
      have e : 8 * (p + 1) = (bits8 c).length + 8 * p := by rw [length_bits8]; omega
      rw [List.flatMap_cons, e, List.drop_append]
      exact h

theorem bits8_binary_fin : ∀ (c : Fin 256),
    (∀ b ∈ bits8 (c.val : Int), b = 48 ∨ b = 49) ∧
    binary_value (bits8 (c.val : Int)) = (c.val : Int) := by
  decide!

theorem bits8_binary (c : Int) (h0 : 0 ≤ c) (h1 : c ≤ 255) :
    (∀ b ∈ bits8 c, b = 48 ∨ b = 49) ∧ binary_value (bits8 c) = c := by
  have h := bits8_binary_fin ⟨c.toNat, by omega⟩
  have e : ((c.toNat : Nat) : Int) = c := Int.toNat_of_nonneg h0
  simp only [e] at h
  exact h

/-- C11, as amended. Encoding layout for ASCII: for a string of `L` characters with
bytes in `0..127`, `get_binary_string` over `8 * L` cells of `'0'` gives exactly `8 * L`
cells, and for each `p < L` the cells `[8p, 8p+8)` are the eight binary digits of the
code of character `p`, most significant first: each is `'0'` or `'1'` and the number
they form is the code. -/
theorem encoding_layout (s : List Int) (hs : ∀ c ∈ s, 0 ≤ c ∧ c ≤ 127) :
    (get_binary_string s.length s (List.replicate (8 * s.length) 48)).length
      = 8 * s.length ∧
    ∀ p : Nat, p < s.length →
      memcpy (get_binary_string s.length s (List.replicate (8 * s.length) 48)) (8 * p) 8
        = bits8 (s.getD p 0) ∧
      (∀ b ∈ bits8 (s.getD p 0), b = 48 ∨ b = 49) ∧
      binary_value (bits8 (s.getD p 0)) = s.getD p 0 := by
  rw [get_binary_string_zeros s hs]
  refine ⟨length_flatMap_bits8 s, ?_⟩
  intro p hp
  have hmem : s.getD p 0 ∈ s := by
    rw [List.getD_eq_getElem?_getD, List.getElem?_eq_getElem hp]
    exact List.getElem_mem _
  have hr := hs _ hmem
  exact ⟨memcpy_flatMap_bits8 s p hp, bits8_binary _ hr.1 (by omega)⟩

/-- C11 as stated fails: for the one-character string of byte 233, whose eight binary
digits are `11101001`, `get_binary_string` leaves the eight cells at `'0'`: the byte is
read as the negative `char` -23 and the loop of `to_binary` does not run. -/
theorem encoding_fails_above_127 :
    bits8 233 = [49, 49, 49, 48, 49, 48, 48, 49] ∧
    memcpy (get_binary_string 1 [233] (List.replicate (8 * 1) 48)) (8 * 0) 8
      = [48, 48, 48, 48, 48, 48, 48, 48] := by
  decide

/-- Witness of `encoding_layout`: the label `"ab"` gives `01100001 01100010`. -/
theorem encoding_layout_witness :
    (∀ c ∈ lit "ab", 0 ≤ c ∧ c ≤ 127) ∧
    get_binary_string 2 (lit "ab") (List.replicate 16 48)
      = [48, 49, 49, 48, 48, 48, 48, 49, 48, 49, 49, 48, 48, 48, 49, 48] ∧
    (get_binary_string (lit "ab").length (lit "ab")
      (List.replicate (8 * (lit "ab").length) 48)).length = 8 * (lit "ab").length :=
  ⟨by decide, by decide, (encoding_layout (lit "ab") (by decide)).1⟩

/-! ## Shape of the candidates -/

/-- C16, at the input where the code departs from it.  `main` does stop with
`EXIT_FAILURE` and no line printed when the status it reads is not `EXIT_SUCCESS`; but
`split_url` of `bitsquat.c` hands back labels and no status, here for the empty URL,
which the pattern cannot match (`start` and `end` taken as 0). -/
theorem split_failure_not_reported :
    (∀ (is_valid_url : List Int → Bool) (permutateExtension : Bool) (dom ext : List Int),
      main EXIT_FAILURE is_valid_url permutateExtension dom ext = (EXIT_FAILURE, [])) ∧
    split_url (fun _ => (0, 0)) (lit "") = ([], []) :=
  ⟨fun _ _ _ _ => rfl, by decide⟩

/-! ## Coverage of the flip loop and bounds of the candidate array -/

theorem getD_zero_flatMap_set (s : List Int) (k : Nat) (v : Int) (hk : 1 ≤ k) :
    ((s.flatMap bits8).set k v).getD 0 0 = (s.flatMap bits8).getD 0 0 := by
  simp only [List.getD_eq_getElem?_getD]
  rw [List.getElem?_set_ne (by omega)]

theorem variant_ne_first_bit (s : List Int) (hne : s ≠ []) (ha : ∀ c ∈ s, 1 ≤ c ∧ c ≤ 127)
    (k : Nat) (hk : k ≤ 8 * s.length) :
    (label_permutations s).getD k [] ≠ complement_bit s 0 ++ [0] := by
  have hs := ascii_label s ha
  have hr := label_range s hs
  have hlen : 0 < s.length := List.length_pos.2 hne
  have hbl : 0 < (s.flatMap bits8).length := by rw [length_flatMap_bits8]; omega
  have h0 := flatMap_bits8_flip s 0 (by omega) hr
  have hget0 : ((s.flatMap bits8).set 0 (flip_char ((s.flatMap bits8).getD 0 0))).getD 0 0
      = flip_char ((s.flatMap bits8).getD 0 0) := by
    rw [List.getD_eq_getElem?_getD, List.getElem?_set, if_pos rfl, if_pos hbl]
    rfl
  rw [label_permutations_row s ha k hk]
  intro heq
  have hv := List.append_cancel_right heq
  have hfm := congrArg (fun l => (l.flatMap bits8).getD 0 0) hv
  simp only at hfm
  rw [← h0, hget0] at hfm
  by_cases hc : 1 ≤ k ∧ k < 8 * s.length
  · rw [if_pos hc, ← flatMap_bits8_flip s k hc.2 hr,
      getD_zero_flatMap_set s k _ hc.1] at hfm
    exact flip_char_ne _ hfm.symm
  · rw [if_neg hc] at hfm
    exact flip_char_ne _ hfm.symm

/-- C17 as stated fails: for the label `"a"`, decoded variant 7 is the label with bit 7
(bit `8 * L - 1`, the least significant bit of its last character) complemented.  And for
the one-byte label 233, outside ASCII, decoded variant 8 is the byte 0 and not the label:
the byte is read as a negative `char` and its digits are never written. -/
theorem last_bit_is_covered :
    (label_permutations (lit "a")).getD 7 [] = complement_bit (lit "a") 7 ++ [0] ∧
    complement_bit (lit "a") 7 = [96] ∧
    (label_permutations [233]).getD 8 [] = [0, 0] := by
  decide

/-- C17, as amended. For a non-empty ASCII label of `L` characters, with bytes in
`1..127`: none of the `8 * L + 1` decoded variants is the label with bit 0 complemented;
the variant at index `8 * L - 1` is the label with bit `8 * L - 1` complemented; and the
variant at index `8 * L` is the label itself. -/
theorem flip_loop_coverage (s : List Int) (hne : s ≠ []) (hs : ∀ c ∈ s, 1 ≤ c ∧ c ≤ 127) :
    (∀ k : Nat, k ≤ 8 * s.length →
      (label_permutations s).getD k [] ≠ complement_bit s 0 ++ [0]) ∧
    (label_permutations s).getD (8 * s.length - 1) []
      = complement_bit s (8 * s.length - 1) ++ [0] ∧
    (label_permutations s).getD (8 * s.length) [] = s ++ [0] := by
  have hlen : 0 < s.length := List.length_pos.2 hne
  refine ⟨fun k hk => variant_ne_first_bit s hne hs k hk, ?_, ?_⟩
  · rw [label_permutations_row s hs _ (by omega), if_pos (by omega)]
  · rw [label_permutations_row s hs _ (Nat.le_refl _), if_neg (by omega)]

/-- Witness of `flip_loop_coverage`: the label `"ab"`. -/
theorem flip_loop_coverage_witness :
    lit "ab" ≠ [] ∧ (∀ c ∈ lit "ab", 1 ≤ c ∧ c ≤ 127) ∧
    (label_permutations (lit "ab")).getD 15 [] = lit "ac" ++ [0] ∧
    (label_permutations (lit "ab")).getD (8 * (lit "ab").length) [] = lit "ab" ++ [0] :=
  ⟨by decide, by decide, by decide,
    (flip_loop_coverage (lit "ab") (by decide) (by decide)).2.2⟩

/-- C18, where the code departs from it: in both modes and for every input the combine
loop stores more rows than `num_url_combinations`, the number allocated, so the value
`num_url_combinations` of `counter` (and every later one) is a row index written past
the end of `url_permutations`. -/
theorem counter_out_of_bounds (permutateExtension : Bool) (dom ext : List Int) :
    num_url_combinations permutateExtension dom ext
      < (url_permutations permutateExtension dom ext).length := by
  rw [length_url_permutations]
  omega

theorem length_get_binary_string_loop (left : Nat) : ∀ (i : Nat) (byte : Int)
    (str bin : List Int), (get_binary_string_loop left i byte str bin).length = bin.length := by
  induction left with
  | zero => intros; rfl
  | succ n ih =>
    intro i byte str bin
    simp only [get_binary_string_loop]
    rw [ih, length_to_binary]

theorem length_binary_str (s : List Int) : (binary_str s).length = strlen s * 8 := by
  unfold binary_str get_binary_string
  rw [length_get_binary_string_loop]
  simp

theorem ext_getD (a b : List Int) (hlen : a.length = b.length)
    (h : ∀ k : Nat, a.getD k 0 = b.getD k 0) : a = b := by
  apply List.ext_getElem hlen
  intro k h1 h2
  have := h k
  simpa [List.getD_eq_getElem?_getD, List.getElem?_eq_getElem h1,
    List.getElem?_eq_getElem h2] using this

/-- The decoder reads the first `binary_str_length` cells only: what follows them, the
terminator slot of a row included, does not change its result. -/
theorem get_string_append (bits p1 p2 out : List Int) (L : Nat)
    (hlen : bits.length = 8 * L) :
    get_string (8 * L) (bits ++ p1) out = get_string (8 * L) (bits ++ p2) out := by
  apply ext_getD _ _ (by rw [length_get_string, length_get_string])
  intro k
  rw [get_string_getD, get_string_getD]
  by_cases hk : 8 * k < 8 * L ∧ k < out.length
  · have hcpy : ∀ p : List Int, memcpy (bits ++ p) (8 * k) 8 = memcpy bits (8 * k) 8 := by
      intro p
      unfold memcpy
      rw [List.drop_append_of_le_length (by omega),
        List.take_append_of_le_length (by rw [List.length_drop]; omega)]
    rw [if_pos hk, if_pos hk, hcpy p1, hcpy p2]
  · rw [if_neg hk, if_neg hk]

theorem label_permutations_last (s : List Int) (hpos : 1 ≤ strlen s) :
    (label_permutations s).getD (strlen s * 8) [] = (label_permutations s).getD 0 [] := by
  have hb := length_binary_str s
  have hb8 : (binary_str s).length = 8 * strlen s := by rw [hb]; omega
  unfold label_permutations str_permutations
  rw [getD_map_range _ _ _ (by omega), getD_map_range _ _ _ (by omega)]
  have h1 : (binary_permutations (binary_str s) (strlen s * 8)).getD (strlen s * 8) []
      = binary_str s ++ [49] := by
    have h := binary_permutations_row_last (binary_str s) (by omega)
    rw [hb] at h
    exact h
  have h2 : (binary_permutations (binary_str s) (strlen s * 8)).getD 0 []
      = binary_str s ++ [0] := by
    have h := binary_permutations_row_zero (binary_str s)
    rw [hb] at h
    exact h
  have e : strlen s * 8 = 8 * strlen s := Nat.mul_comm _ _
  rw [h1, h2, e, get_string_append (binary_str s) [49] [0] _ (strlen s) hb8]

/-- C19. With the extension fixed, for a non-empty domain label with codes in `1..255`:
every row the combine loop stores is among the first `num_url_combinations` rows, the
ones the print loop visits (the last row equals row 0); hence a line is printed exactly
when it is a generated candidate that the validity predicate accepts. -/
theorem print_loop_loses_no_candidate (dom ext : List Int) (hne : dom ≠ [])
    (hd : ∀ c ∈ dom, 1 ≤ c ∧ c ≤ 255) :
    (url_permutations false dom ext).length = 8 * dom.length + 1 ∧
    num_url_combinations false dom ext = 8 * dom.length ∧
    (∀ row ∈ url_permutations false dom ext,
      row ∈ (url_permutations false dom ext).take (num_url_combinations false dom ext)) ∧
    (∀ (is_valid_url : List Int → Bool) (line : List Int),
      line ∈ printed is_valid_url false dom ext
        ↔ line ∈ ((url_permutations false dom ext).map c_str).filter is_valid_url) := by
  have hlen : 0 < dom.length := List.length_pos.2 hne
  have hL : strlen dom = dom.length := strlen_of_no_zero _ (label_no_zero _ hd)
  have hnum : num_url_combinations false dom ext = 8 * dom.length := by
    simp [num_url_combinations, hL]; omega
  have hlenrows : (url_permutations false dom ext).length = 8 * dom.length + 1 := by
    rw [length_url_permutations_false, hL]; omega
  have hlast : (url_permutations false dom ext).getD (8 * dom.length) []
      = (url_permutations false dom ext).getD 0 [] := by
    have e : 8 * dom.length = strlen dom * 8 := by rw [hL]; omega
    rw [url_permutations_false, e, getD_map_range _ _ _ (by omega),
      getD_map_range _ _ _ (by omega), label_permutations_last dom (by omega)]
  have hrows : ∀ row ∈ url_permutations false dom ext,
      row ∈ (url_permutations false dom ext).take (num_url_combinations false dom ext) := by
    intro row hrow
    rw [List.mem_iff_getElem] at hrow
    obtain ⟨k, hk, hrk⟩ := hrow
    have hgk : (url_permutations false dom ext).getD k [] = row := by
      rw [List.getD_eq_getElem?_getD, List.getElem?_eq_getElem hk, ← hrk]; rfl
    rw [hnum]
    by_cases hk8 : k < 8 * dom.length
    · rw [← hgk]
      exact getD_mem_take _ k _ hk8 hk
    · have hk2 : k = 8 * dom.length := by omega
      rw [← hgk, hk2, hlast]
      exact getD_mem_take _ 0 _ (by omega) (by omega)
  refine ⟨hlenrows, hnum, hrows, ?_⟩
  intro v line
  unfold printed
  simp only [List.mem_filter, List.mem_map]
  constructor
  · rintro ⟨⟨row, hrow, hline⟩, hv⟩
    exact ⟨⟨row, List.mem_of_mem_take hrow, hline⟩, hv⟩
  · rintro ⟨⟨row, hrow, hline⟩, hv⟩
    exact ⟨⟨row, hrows row hrow, hline⟩, hv⟩

/-- Witness of `print_loop_loses_no_candidate`: the input `"ab.co"`, 17 rows stored and
16 visited. -/
theorem print_loop_loses_no_candidate_witness :
    lit "ab" ≠ [] ∧ (∀ c ∈ lit "ab", 1 ≤ c ∧ c ≤ 255) ∧
    (url_permutations false (lit "ab") (lit "co")).getD 16 [] = lit "ab.co" ++ [0] ∧
    (url_permutations false (lit "ab") (lit "co")).length = 8 * (lit "ab").length + 1 :=
  ⟨by decide, by decide, by decide,
    (print_loop_loses_no_candidate (lit "ab") (lit "co") (by decide) (by decide)).1⟩

end Bitsquat
